import Mathlib

/-!
# natpunch-go, package `cmd`: the WireGuard control-utility adapter

A shallow embedding of `src/cmd/cmd.go`.

* Go strings are modelled as lists of Unicode code points (`Str`), i.e. the
  embedding covers texts that are valid UTF-8.
* The operating system is a `World`: what running a command yields, what
  resolving a UDP address yields, and the history of the calls made so far.
  Every function of the package takes a `World` and returns the `World` after it.
* `log.Fatalln` ends the process; a function that may call it returns an
  `Outcome`, either `ret v` or `fatal msg err`.
* The functions of the Go standard library that the package calls
  (`strings`, `strconv`, `encoding/base64`, `net.IP.String`) are modelled after
  their documented behaviour, specialised to the arguments the package passes.
-/

namespace Natpunch

/-! ## Basic types -/

/-- Text: a Go string seen as its sequence of code points. -/
abbrev Str := List Char

/-- One octet. -/
abbrev Byte := Fin 256

/-- Error value carried by a failed `exec.Command(...).Output()`. -/
structure ExecError where
  detail : Str
deriving DecidableEq

/-- Error value carried by a failed `net.ResolveUDPAddr`. -/
structure AddrError where
  detail : Str
deriving DecidableEq

/-- The values of Go's `error` interface that occur in the package. -/
inductive GoError where
  /-- an error of `os/exec` -/
  | exec (e : ExecError)
  /-- a `*strconv.NumError` wrapping `strconv.ErrSyntax` -/
  | numSyntax
  /-- a `*strconv.NumError` wrapping `strconv.ErrRange` -/
  | numRange
  /-- a `base64.CorruptInputError` (the offset is not modelled) -/
  | corruptInput
  /-- an error of package `net` -/
  | addr (e : AddrError)
  /-- the result of `errors.New(text)` -/
  | errorsNew (text : Str)
deriving DecidableEq

/-- The type `net.UDPAddr`. -/
structure UDPAddr where
  IP : List Byte
  Port : Nat
  Zone : Str
deriving DecidableEq

/-- A call that leaves the process. -/
inductive Event where
  /-- one child process: `exec.Command(name, args...).Output()` -/
  | exec (name : Str) (args : List Str)
  /-- one call `net.ResolveUDPAddr(network, address)` -/
  | resolve (network address : Str)
deriving DecidableEq

/-- The environment of the package. -/
structure World where
  /-- standard output and error of `exec.Command(name, args...).Output()` -/
  Output : Str → List Str → Str × Option ExecError
  /-- result of `net.ResolveUDPAddr(network, address)` -/
  Resolve : Str → Str → Option UDPAddr × Option AddrError
  /-- the calls made so far, oldest first -/
  events : List Event

/-- How a function that may call `log.Fatalln` ends. -/
inductive Outcome (α : Type) where
  /-- the function returns `a` -/
  | ret (a : α)
  /-- the function calls `log.Fatalln(msg, err)`: the message is logged and the process exits -/
  | fatal (msg : Str) (err : GoError)
deriving DecidableEq

/-- The type `network.Key`, a `[32]byte`. -/
abbrev Key := { l : List Byte // l.length = 32 }

/-- Modelled from the spec: the type `network.Peer`, declared outside `src/`.
A peer is identified by its public key and carries an IP address (`net.IP`, a
byte slice) and a 16-bit UDP port. -/
structure Peer where
  Pubkey : Key
  IP : List Byte
  Port : Fin 65536

/-! ## Package `strings` -/

/-- The predicate `unicode.IsSpace`. -/
def isSpace (c : Char) : Bool :=
  let r := c.toNat
  if r ≤ 0xFF then
    r == 0x09 || r == 0x0A || r == 0x0B || r == 0x0C || r == 0x0D || r == 0x20
      || r == 0x85 || r == 0xA0
  else
    r == 0x1680 || (0x2000 ≤ r && r ≤ 0x200A) || r == 0x2028 || r == 0x2029
      || r == 0x202F || r == 0x205F || r == 0x3000

/-- The function `strings.TrimSpace`: all leading and trailing white space,
as defined by Unicode, is removed. -/
def TrimSpace (s : Str) : Str :=
  ((s.dropWhile isSpace).reverse.dropWhile isSpace).reverse

/-- The function `strings.Split(s, sep)` for a separator of one character:
the pieces of `s` between the occurrences of `sep`, one more than there are
occurrences. -/
def Split : Str → Char → List Str
  | [], _ => [[]]
  | c :: cs, sep =>
    if c = sep then [] :: Split cs sep
    else
      match Split cs sep with
      | [] => [[c]]
      | piece :: pieces => (c :: piece) :: pieces

/-- The function `strings.HasPrefix`. -/
def HasPrefix (s pfx : Str) : Bool := pfx.isPrefixOf s

/-- The function `strings.TrimPrefix`. -/
def TrimPrefix (s pfx : Str) : Str :=
  if HasPrefix s pfx then s.drop pfx.length else s

/-! ## Package `strconv` -/

/-- Value of a byte as a digit in `strconv.ParseUint`: `0`-`9` count 0 to 9,
letters of either case count from 10, anything else is no digit. -/
def digitVal (c : Char) : Option Nat :=
  let n := c.toNat
  if 48 ≤ n ∧ n ≤ 57 then some (n - 48)
  else if 97 ≤ n ∧ n ≤ 122 then some (n - 97 + 10)
  else if 65 ≤ n ∧ n ≤ 90 then some (n - 65 + 10)
  else none

/-- The loop of `strconv.ParseUint` in base 10 with the largest admissible
value `maxVal`; `n` is the number read so far. -/
def parseLoop (maxVal : Nat) : Nat → Str → Nat × Option GoError
  | n, [] => (n, none)
  | n, c :: cs =>
    match digitVal c with
    | none => (0, some .numSyntax)
    | some d =>
      if d ≥ 10 then (0, some .numSyntax)
      else if n ≥ (2 ^ 64 - 1) / 10 + 1 then (maxVal, some .numRange)
      else
        let n10 := (n * 10) % 2 ^ 64
        let n1 := (n10 + d) % 2 ^ 64
        if n1 < n10 ∨ n1 > maxVal then (maxVal, some .numRange)
        else parseLoop maxVal n1 cs

/-- The call `strconv.ParseUint(s, 10, bitSize)` for `1 ≤ bitSize ≤ 64`. -/
def ParseUint (s : Str) (bitSize : Nat) : Nat × Option GoError :=
  if s = [] then (0, some .numSyntax)
  else parseLoop (2 ^ bitSize - 1) 0 s

/-- The character of a decimal digit. -/
def digitChar (d : Nat) : Char := Char.ofNat (48 + d)

/-- Decimal digits of `u`, most significant first, written in front of `acc`;
`fuel` bounds the number of digits after the first. -/
def formatBits : Nat → Nat → Str → Str
  | 0, u, acc => digitChar (u % 10) :: acc
  | fuel + 1, u, acc =>
    if u ≥ 10 then formatBits fuel (u / 10) (digitChar (u % 10) :: acc)
    else digitChar u :: acc

/-- The call `strconv.FormatUint(u, 10)` for a 64-bit `u` (at most 20 digits). -/
def FormatUint (u : Nat) : Str := formatBits 19 (u % 2 ^ 64) []

/-- The function `strconv.Itoa` on a 64-bit `int`. -/
def Itoa (i : Int) : Str :=
  if i < 0 then '-' :: FormatUint (-i).toNat else FormatUint i.toNat

/-! ## Package `encoding/base64`, `StdEncoding` -/

/-- The alphabet of the standard encoding. -/
def encodeStd : Str :=
  "ABCDEFGHIJKLMNOPQRSTUVWXYZabcdefghijklmnopqrstuvwxyz0123456789+/".toList

/-- Character of a 6-bit value. -/
def encChar (v : Nat) : Char := encodeStd.getD v 'A'

/-- The decode map of the standard encoding: the 6-bit value of a character of
the alphabet, `none` for any other character. -/
def decodeMap (c : Char) : Option Nat :=
  let n := c.toNat
  if 65 ≤ n ∧ n ≤ 90 then some (n - 65)
  else if 97 ≤ n ∧ n ≤ 122 then some (n - 97 + 26)
  else if 48 ≤ n ∧ n ≤ 57 then some (n - 48 + 52)
  else if n = 43 then some 62
  else if n = 47 then some 63
  else none

/-- The padding character. -/
def padChar : Char := '='

/-- The function `StdEncoding.EncodeToString`. -/
def EncodeToString : List Byte → Str
  | a :: b :: c :: rest =>
    let val := a.val * 65536 + b.val * 256 + c.val
    encChar (val / 262144 % 64) :: encChar (val / 4096 % 64) :: encChar (val / 64 % 64)
      :: encChar (val % 64) :: EncodeToString rest
  | [a, b] =>
    let val := a.val * 65536 + b.val * 256
    [encChar (val / 262144 % 64), encChar (val / 4096 % 64), encChar (val / 64 % 64), padChar]
  | [a] =>
    let val := a.val * 65536
    [encChar (val / 262144 % 64), encChar (val / 4096 % 64), padChar, padChar]
  | [] => []

/-- A byte from a number, as the conversion `byte(x)`. -/
def toByte (x : Nat) : Byte := ⟨x % 256, Nat.mod_lt _ (by decide)⟩

/-- The bytes of one quantum of `dlen` six-bit values (`2 ≤ dlen ≤ 4`):
`dlen - 1` bytes taken from the top of the 24-bit value. -/
def quantumBytes (dbuf : List Nat) : List Byte :=
  let val := dbuf.getD 0 0 * 262144 + dbuf.getD 1 0 * 4096 + dbuf.getD 2 0 * 64 + dbuf.getD 3 0
  ([toByte (val / 65536), toByte (val / 256), toByte val]).take (dbuf.length - 1)

/-- The input from its first character that is neither `\n` nor `\r`. -/
def skipNewlines : Str → Str
  | [] => []
  | c :: cs => if c = '\n' ∨ c = '\r' then skipNewlines cs else c :: cs

/-- The decoder of the standard encoding (padded, not strict). `dbuf` holds the
six-bit values of the quantum being read, `out` the bytes decoded so far. A
line feed or carriage return is skipped anywhere; a padding character is
accepted only as the third and fourth, or the fourth, character of the last
quantum, and nothing but line ends may follow it. -/
def decodeLoop : List Nat → List Byte → Str → List Byte × Option GoError
  | dbuf, out, [] =>
    if dbuf = [] then (out, none) else (out, some .corruptInput)
  | dbuf, out, c :: cs =>
    match decodeMap c with
    | some v =>
      if dbuf.length = 3 then decodeLoop [] (out ++ quantumBytes (dbuf ++ [v])) cs
      else decodeLoop (dbuf ++ [v]) out cs
    | none =>
      if c = '\n' ∨ c = '\r' then decodeLoop dbuf out cs
      else if c ≠ padChar then (out, some .corruptInput)
      else if dbuf.length < 2 then (out, some .corruptInput)
      else if dbuf.length = 2 then
        match skipNewlines cs with
        | [] => (out, some .corruptInput)
        | c2 :: rest =>
          if c2 ≠ padChar then (out, some .corruptInput)
          else if skipNewlines rest = [] then (out ++ quantumBytes dbuf, none)
          else (out ++ quantumBytes dbuf, some .corruptInput)
      else if skipNewlines cs = [] then (out ++ quantumBytes dbuf, none)
      else (out ++ quantumBytes dbuf, some .corruptInput)

/-- The function `StdEncoding.DecodeString`. -/
def DecodeString (s : Str) : List Byte × Option GoError := decodeLoop [] [] s

/-! ## Package `net`: `IP.String` -/

/-- A lower-case hexadecimal digit. -/
def hexChar (d : Nat) : Char := "0123456789abcdef".toList.getD d '0'

/-- Hexadecimal digits of `u` without leading zeros, in front of `acc`. -/
def hexBits : Nat → Nat → Str → Str
  | 0, u, acc => hexChar (u % 16) :: acc
  | fuel + 1, u, acc =>
    if u ≥ 16 then hexBits fuel (u / 16) (hexChar (u % 16) :: acc)
    else hexChar u :: acc

/-- Two hexadecimal digits for each byte. -/
def hexString (b : List Byte) : Str :=
  b.flatMap fun x => [hexChar (x.val / 16), hexChar (x.val % 16)]

/-- The method `IP.To4`: the four bytes of an IPv4 address, given in four
bytes or as an IPv4-mapped IPv6 address. -/
def To4 (ip : List Byte) : Option (List Byte) :=
  if ip.length = 4 then some ip
  else if ip.length = 16 ∧ ip.take 10 = List.replicate 10 0
      ∧ ip.getD 10 0 = 255 ∧ ip.getD 11 0 = 255 then some (ip.drop 12)
  else none

/-- Dotted decimal text of four bytes. -/
def dotted (p4 : List Byte) : Str :=
  FormatUint (p4.getD 0 0).val ++ '.' :: FormatUint (p4.getD 1 0).val
    ++ '.' :: FormatUint (p4.getD 2 0).val ++ '.' :: FormatUint (p4.getD 3 0).val

/-- The eight 16-bit groups of a 16-byte address. -/
def groups (ip : List Byte) : List Nat :=
  (List.range 8).map fun i => (ip.getD (2 * i) 0).val * 256 + (ip.getD (2 * i + 1) 0).val

/-- Number of leading zero groups. -/
def zeroLen : List Nat → Nat
  | [] => 0
  | g :: gs => if g = 0 then zeroLen gs + 1 else 0

/-- The longest run of at least two zero groups, the first one among equals,
as its start and end index; `(255, 255)` when there is none. -/
def zeroRun (g : List Nat) : Nat × Nat :=
  (List.range 8).foldl
    (fun (z : Nat × Nat) i =>
      let l := zeroLen (g.drop i)
      if l ≥ 2 ∧ l > z.2 - z.1 then (i, i + l) else z)
    (255, 255)

/-- Text of the groups from index `i` on, the run `z` written as `::`. -/
def groupsText (g : List Nat) (z : Nat × Nat) : Nat → Nat → Str
  | 0, _ => []
  | fuel + 1, i =>
    if i ≥ 8 then []
    else if i = z.1 then
      if z.2 ≥ 8 then [':', ':']
      else ':' :: ':' :: (hexBits 3 (g.getD z.2 0) [] ++ groupsText g z fuel (z.2 + 1))
    else if i > 0 then ':' :: (hexBits 3 (g.getD i 0) [] ++ groupsText g z fuel (i + 1))
    else hexBits 3 (g.getD i 0) [] ++ groupsText g z fuel (i + 1)

/-- The method `net.IP.String`. -/
def IPString (ip : List Byte) : Str :=
  if ip.length = 0 then "<nil>".toList
  else if ip.length ≠ 4 ∧ ip.length ≠ 16 then '?' :: hexString ip
  else
    match To4 ip with
    | some p4 => dotted p4
    | none => groupsText (groups ip) (zeroRun (groups ip)) 8 0

/-! ## Package `cmd` -/

/-- The builtin `copy(dst, src)`: the slice `dst` afterwards. -/
def copy (dst src : List Byte) : List Byte :=
  src.take dst.length ++ dst.drop src.length

/-- The zero value of `[32]byte`. -/
def zeroArr : List Byte := List.replicate 32 0

/-- The key made of `keyArr` after `copy(keyArr[:], keyBytes)`. -/
def keyOfCopy (keyBytes : List Byte) : Key :=
  ⟨copy zeroArr keyBytes, by simp [copy, zeroArr]; omega⟩

/-- The constant `persistentKeepalive`; no function of the package uses it. -/
def persistentKeepalive : Str := "25".toList

/-- RunCmd runs a command and returns the output, returning any errors. -/
def RunCmd (w : World) (command : Str) (args : List Str) : World × Str × Option GoError :=
  let w1 : World := { w with events := w.events ++ [Event.exec command args] }
  match w.Output command args with
  | (_, some err) => (w1, [], some (.exec err))
  | (outBytes, none) => (w1, outBytes, none)

/-- GetClientPort gets the client's listening port for Wireguard. -/
def GetClientPort (w : World) (iface : Str) : World × Outcome Nat :=
  match RunCmd w "wg".toList ["show".toList, iface, "listen-port".toList] with
  | (w1, _, some err) => (w1, .fatal "Error getting listen port:".toList err)
  | (w1, output, none) =>
    match ParseUint (TrimSpace output) 16 with
    | (_, some err) => (w1, .fatal "Error parsing listen port:".toList err)
    | (port, none) => (w1, .ret (port % 2 ^ 16))

/-- GetPeers returns a list of peers on the Wireguard interface. -/
def GetPeers (w : World) (iface : Str) : World × Outcome (List Str) :=
  match RunCmd w "wg".toList ["show".toList, iface, "peers".toList] with
  | (w1, _, some err) => (w1, .fatal "Error getting peers:".toList err)
  | (w1, output, none) => (w1, .ret (Split (TrimSpace output) '\n'))

/-- The loop of `GetPeerEndpoint` over the lines of the output. -/
def endpointLoop (w : World) (pfx : Str) :
    List Str → World × Option UDPAddr × Option GoError
  | [] => (w, none, some (.errorsNew "peer pubkey not found in endpoints".toList))
  | line :: lines =>
    if HasPrefix line pfx then
      let addr := TrimPrefix line pfx
      let r := w.Resolve "udp".toList addr
      ({ w with events := w.events ++ [Event.resolve "udp".toList addr] },
        r.1, r.2.map GoError.addr)
    else endpointLoop w pfx lines

/-- GetPeerEndpoint returns the endpoint of a peer, specified by public key. -/
def GetPeerEndpoint (w : World) (peer : Str) (iface : Str) :
    World × Outcome (Option UDPAddr × Option GoError) :=
  match RunCmd w "wg".toList ["show".toList, iface, "endpoints".toList] with
  | (w1, _, some err) => (w1, .fatal "Error getting peer endpoints".toList err)
  | (w1, output, none) =>
    let pfx := peer ++ ['\t']
    let r := endpointLoop w1 pfx (Split output '\n')
    (r.1, .ret r.2)

/-- GetClientPubkey returns the public key on the Wireguard interface. -/
def GetClientPubkey (w : World) (iface : Str) : World × Outcome Key :=
  match RunCmd w "wg".toList ["show".toList, iface, "public-key".toList] with
  | (w1, _, some err) => (w1, .fatal "Error getting client pubkey:".toList err)
  | (w1, output, none) =>
    match DecodeString (TrimSpace output) with
    | (_, some err) => (w1, .fatal "Error parsing client pubkey:".toList err)
    | (keyBytes, none) => (w1, .ret (keyOfCopy keyBytes))

/-- GetClientPrivkey returns the private key on the Wireguard interface. -/
def GetClientPrivkey (w : World) (iface : Str) : World × Outcome Key :=
  match RunCmd w "wg".toList ["show".toList, iface, "private-key".toList] with
  | (w1, _, some err) => (w1, .fatal "Error getting client privkey:".toList err)
  | (w1, output, none) =>
    match DecodeString (TrimSpace output) with
    | (_, some err) => (w1, .fatal "Error parsing client privkey:".toList err)
    | (keyBytes, none) => (w1, .ret (keyOfCopy keyBytes))

/-- SetPeer updates a peer's endpoint and keepalive with the utility;
keepalive is in seconds. Both results of `RunCmd` are dropped and the function
returns nothing. -/
def SetPeer (w : World) (peer : Peer) (keepalive : Int) (iface : Str) : World × Outcome Unit :=
  let keyString := EncodeToString peer.Pubkey.val
  let r := RunCmd w "wg".toList
    ["set".toList, iface,
     "peer".toList, keyString,
     "persistent-keepalive".toList, Itoa keepalive,
     "endpoint".toList, IPString peer.IP ++ ":".toList ++ FormatUint peer.Port.val]
  (r.1, .ret ())

/-! ## Specification vocabulary and sample inputs -/

/-- A decimal digit `0`-`9`. -/
def isDecDigit (c : Char) : Bool := 48 ≤ c.toNat && c.toNat ≤ 57

/-- The value read from the digits `cs` after the number `n`. -/
def readFrom (n : Nat) (cs : Str) : Nat := cs.foldl (fun n c => 10 * n + (c.toNat - 48)) n

/-- The number a text of decimal digits denotes. -/
def decimalValue (t : Str) : Nat := readFrom 0 t

/-- The text is an unsigned decimal integer in the range 0..65535: not empty,
decimal digits only, and its value is at most 65535. -/
def isPortText (t : Str) : Bool :=
  !t.isEmpty && t.all isDecDigit && decide (decimalValue t ≤ 65535)

/-- The all-zero key. -/
def zeroKey : Key := ⟨List.replicate 32 0, by simp⟩

/-- A world in which every command prints `out` and ends with `err`, and every
address resolves to 203.0.113.5:51820. -/
def sampleWorld (out : Str) (err : Option ExecError) : World :=
  { Output := fun _ _ => (out, err)
    Resolve := fun _ _ => (some ⟨[203, 0, 113, 5], 51820, []⟩, none)
    events := [] }

/-- The key with bytes 0, 1, ..., 31. -/
def sampleKey : Key := ⟨(List.range 32).map toByte, by simp⟩

/-- Specification: the number with the given digits, most significant first,
in the given base, read after the number `acc`. -/
def digitsFrom (base acc : Nat) (ds : List Nat) : Nat :=
  ds.foldl (fun n d => base * n + d) acc

/-- Specification: the number with the given digits, most significant first. -/
def ofDigitsBE (base : Nat) (ds : List Nat) : Nat := digitsFrom base 0 ds

/-- Specification: `t` is the decimal text of the natural number `n`: decimal
digits only, at least one, of value `n`, and no leading zero except for the
text `0` itself. -/
def isDecimalOf (t : Str) (n : Nat) : Bool :=
  !t.isEmpty && t.all isDecDigit && decide (decimalValue t = n)
    && (t == ['0'] || t.head? != some '0')

/-- Specification: `t` is the decimal text of the integer `k`: the decimal text
of `k` when `k` is not negative, a minus sign and the decimal text of `-k`
when it is. -/
def isDecimalOfInt (t : Str) (k : Int) : Bool :=
  if k < 0 then
    match t with
    | '-' :: ds => isDecimalOf ds (-k).toNat
    | _ => false
  else isDecimalOf t k.toNat

/-- Specification: the six-bit value of a character in the base64 alphabet of
RFC 4648: `A`-`Z` are 0 to 25, `a`-`z` 26 to 51, `0`-`9` 52 to 61, `+` is 62
and `/` is 63. -/
def sextetOf (c : Char) : Option Nat :=
  if 'A' ≤ c ∧ c ≤ 'Z' then some (c.toNat - 'A'.toNat)
  else if 'a' ≤ c ∧ c ≤ 'z' then some (c.toNat - 'a'.toNat + 26)
  else if '0' ≤ c ∧ c ≤ '9' then some (c.toNat - '0'.toNat + 52)
  else if c = '+' then some 62
  else if c = '/' then some 63
  else none

/-- Specification: `t` is the padded standard base64 text of the bytes `bs`.
With `pad` the number of bytes missing to a multiple of three, `t` has four
characters for every three bytes started, its last `pad` characters are `=`,
the characters before are in the alphabet, and read as a number in base 64
they are the bytes read as a number in base 256, followed by `2 * pad` zero
bits. -/
def isBase64Of (t : Str) (bs : List Byte) : Bool :=
  let pad := (3 - bs.length % 3) % 3
  let body := t.take (t.length - pad)
  decide (t.length = 4 * ((bs.length + 2) / 3))
    && t.drop (t.length - pad) == List.replicate pad '='
    && body.all (fun c => (sextetOf c).isSome)
    && decide (ofDigitsBE 64 (body.map fun c => (sextetOf c).getD 0)
        = ofDigitsBE 256 (bs.map Fin.val) * 2 ^ (2 * pad))

/-- Specification: a lower-case hexadecimal digit. -/
def isHexDigit (c : Char) : Bool := ('0' ≤ c && c ≤ '9') || ('a' ≤ c && c ≤ 'f')

/-- Specification: the value of a lower-case hexadecimal digit. -/
def hexDigitValue (c : Char) : Nat :=
  if '0' ≤ c ∧ c ≤ '9' then c.toNat - '0'.toNat else c.toNat - 'a'.toNat + 10

/-- Specification: the number a text of hexadecimal digits denotes. -/
def hexValue (t : Str) : Nat := ofDigitsBE 16 (t.map hexDigitValue)

/-- Specification: `t` is the hexadecimal text of `n`: lower-case hexadecimal
digits only, at least one, of value `n`, and no leading zero except for the
text `0` itself. -/
def isHexOf (t : Str) (n : Nat) : Bool :=
  !t.isEmpty && t.all isHexDigit && decide (hexValue t = n)
    && (t == ['0'] || t.head? != some '0')

/-- Specification: the 16-bit groups of an address, two bytes each, the first
byte the more significant. -/
def words : List Byte → List Nat
  | a :: b :: rest => (a.val * 256 + b.val) :: words rest
  | _ => []

/-- Specification: the groups `s`, ..., `s + l - 1` exist and are all zero. -/
def zerosAt (g : List Nat) (s l : Nat) : Prop :=
  ∀ i, s ≤ i → i < s + l → g.getD i 1 = 0

/-- Specification: `t` is the canonical text of the IPv6 address with groups
`g` (RFC 5952). Without two zero groups in a row, `t` is the hexadecimal
texts of the groups, joined by colons. Otherwise the longest run of zero
groups, the first one among several of that length, is replaced by `::`
between the texts of the groups before it and of those after it. -/
def IsIPv6Text (t : Str) (g : List Nat) : Prop :=
  ((∀ s, ¬ zerosAt g s 2) →
    ∃ hs : List Str, List.Forall₂ (fun h v => isHexOf h v = true) hs g
      ∧ t = [':'].intercalate hs)
  ∧ (∀ s l, 2 ≤ l → zerosAt g s l → (∀ s', ¬ zerosAt g s' (l + 1)) →
      (∀ s', s' < s → ¬ zerosAt g s' l) →
      ∃ hs1 hs2 : List Str,
        List.Forall₂ (fun h v => isHexOf h v = true) hs1 (g.take s)
        ∧ List.Forall₂ (fun h v => isHexOf h v = true) hs2 (g.drop (s + l))
        ∧ t = [':'].intercalate hs1 ++ [':', ':'] ++ [':'].intercalate hs2)

/-- Specification: `t` is the text of the IP address `ip`, a byte slice, as
`net.IP.String` documents it: `<nil>` for the empty slice; dotted decimal for
an IPv4 address, given in four bytes or as an IPv4-mapped address of sixteen;
the canonical IPv6 text for any other address of sixteen bytes; and `?`
followed by two hexadecimal digits for each byte for a slice of any other
length. -/
def IsIPText (t : Str) (ip : List Byte) : Prop :=
  (ip = [] → t = "<nil>".toList)
  ∧ (∀ a b c d : Byte,
      (ip = [a, b, c, d] ∨ ip = [0, 0, 0, 0, 0, 0, 0, 0, 0, 0, 255, 255, a, b, c, d]) →
      ∃ ta tb tc td : Str,
        isDecimalOf ta a.val = true ∧ isDecimalOf tb b.val = true
        ∧ isDecimalOf tc c.val = true ∧ isDecimalOf td d.val = true
        ∧ t = ta ++ ['.'] ++ tb ++ ['.'] ++ tc ++ ['.'] ++ td)
  ∧ (ip.length = 16 → ip.take 12 ≠ [0, 0, 0, 0, 0, 0, 0, 0, 0, 0, 255, 255] →
      IsIPv6Text t (words ip))
  ∧ (ip ≠ [] → ip.length ≠ 4 → ip.length ≠ 16 →
      ∃ h : Str, t = '?' :: h ∧ h.length = 2 * ip.length ∧ h.all isHexDigit = true
        ∧ hexValue h = ofDigitsBE 256 (ip.map Fin.val))

/-! ## Vocabulary of the proofs -/

/-- One step of the search for the longest run. -/
def runStep (L : Nat → Nat) (z : Nat × Nat) (i : Nat) : Nat × Nat :=
  if L i ≥ 2 ∧ L i > z.2 - z.1 then (i, i + L i) else z

/-- What the search knows after the start indices `seen`: no run of two, or
the first longest run. -/
def RunInv (L : Nat → Nat) (z : Nat × Nat) (seen : List Nat) : Prop :=
  (z = (255, 255) ∧ ∀ i ∈ seen, L i < 2)
  ∨ ∃ s ∈ seen, z = (s, s + L s) ∧ 2 ≤ L s ∧ (∀ i ∈ seen, L i ≤ L s)
      ∧ ∀ i ∈ seen, i < s → L i < L s

/-! # Theorems -/

/-! ## Lemmas on `strings` -/

theorem dropWhile_of_all (p : Char → Bool) (pre s : Str) (h : ∀ c ∈ pre, p c = true) :
    (pre ++ s).dropWhile p = s.dropWhile p := by
  induction pre with
  | nil => rfl
  | cons a pre ih =>
    have ha : p a = true := h a (List.mem_cons_self _ _)
    simp only [List.cons_append, List.dropWhile_cons, ha, if_true]
    exact ih (fun c hc => h c (List.mem_cons_of_mem _ hc))

theorem dropWhile_of_head (p : Char → Bool) (s : Str)
    (h : ∀ c, s.head? = some c → p c = false) : s.dropWhile p = s := by
  cases s with
  | nil => rfl
  | cons a s =>
    have ha : p a = false := h a rfl
    simp [List.dropWhile_cons, ha]

/-- Trimming removes white space around a text that neither starts nor ends
with white space. -/
theorem TrimSpace_sandwich (pre mid post : Str)
    (hpre : ∀ c ∈ pre, isSpace c = true) (hpost : ∀ c ∈ post, isSpace c = true)
    (hhead : ∀ c, mid.head? = some c → isSpace c = false)
    (hlast : ∀ c, mid.getLast? = some c → isSpace c = false) :
    TrimSpace (pre ++ mid ++ post) = mid := by
  unfold TrimSpace
  rw [List.append_assoc, dropWhile_of_all isSpace pre _ hpre]
  cases mid with
  | nil =>
    have hp : ∀ c ∈ post ++ [], isSpace c = true := by simpa using hpost
    have := dropWhile_of_all isSpace post [] hpost
    simp only [List.nil_append]
    rw [List.append_nil] at this
    rw [this]; rfl
  | cons a m =>
    rw [dropWhile_of_head isSpace (a :: m ++ post) (by intro c hc; exact hhead c (by simpa using hc))]
    rw [List.reverse_append, dropWhile_of_all isSpace post.reverse _
      (by intro c hc; exact hpost c (List.mem_reverse.mp hc))]
    rw [dropWhile_of_head isSpace (a :: m).reverse (by
      intro c hc; apply hlast c; rw [List.head?_reverse] at hc; exact hc)]
    exact List.reverse_reverse _

theorem Split_ne_nil (s : Str) (sep : Char) : Split s sep ≠ [] := by
  cases s with
  | nil => simp [Split]
  | cons c cs =>
    unfold Split
    split
    · simp
    · split <;> simp

/-- A text without the separator is a single piece. -/
theorem Split_of_not_mem (s : Str) (sep : Char) (h : sep ∉ s) : Split s sep = [s] := by
  induction s with
  | nil => rfl
  | cons c cs ih =>
    have hc : c ≠ sep := fun e => h (e ▸ List.mem_cons_self _ _)
    have hcs : sep ∉ cs := fun e => h (List.mem_cons_of_mem _ e)
    simp [Split, hc, ih hcs]

/-- Splitting after a first piece that is free of the separator. -/
theorem Split_append_sep (k rest : Str) (sep : Char) (h : sep ∉ k) :
    Split (k ++ sep :: rest) sep = k :: Split rest sep := by
  induction k with
  | nil => simp [Split]
  | cons c cs ih =>
    have hc : c ≠ sep := fun e => h (e ▸ List.mem_cons_self _ _)
    have hcs : sep ∉ cs := fun e => h (List.mem_cons_of_mem _ e)
    simp [Split, hc, ih hcs]


/-- The lines of `k₁ \n ... kₙ \n last` are the `kᵢ` and `last`. -/
theorem Split_lines (init : List Str) (last : Str)
    (h : ∀ k ∈ init, '\n' ∉ k) (hl : '\n' ∉ last) :
    Split (init.flatMap (fun k => k ++ ['\n']) ++ last) '\n' = init ++ [last] := by
  induction init with
  | nil => simpa using Split_of_not_mem last _ hl
  | cons k ks ih =>
    have e : (k :: ks).flatMap (fun k => k ++ ['\n']) ++ last
        = k ++ '\n' :: (ks.flatMap (fun k => k ++ ['\n']) ++ last) := by
      simp [List.flatMap_cons]
    rw [e, Split_append_sep k _ _ (h k (List.mem_cons_self _ _)),
      ih (fun x hx => h x (List.mem_cons_of_mem _ hx))]
    rfl

theorem head?_lines (init : List Str) (last : Str) (c : Char)
    (h : ∀ k ∈ init, k ≠ [] ∧ ∀ c, k.head? = some c → isSpace c = false)
    (hl : ∀ c, last.head? = some c → isSpace c = false)
    (hc : (init.flatMap (fun k => k ++ ['\n']) ++ last).head? = some c) :
    isSpace c = false := by
  cases init with
  | nil => exact hl c (by simpa using hc)
  | cons k ks =>
    obtain ⟨hk, hh⟩ := h k (List.mem_cons_self _ _)
    cases k with
    | nil => exact absurd rfl hk
    | cons a k => exact hh c (by simpa [List.flatMap_cons] using hc)

/-- What `GetPeers` computes from an output of newline-terminated keys. -/
theorem Split_TrimSpace_lines (keys : List Str) (hne : keys ≠ [])
    (hkey : ∀ k ∈ keys, k ≠ [] ∧ '\n' ∉ k ∧ (∀ c, k.head? = some c → isSpace c = false)
      ∧ (∀ c, k.getLast? = some c → isSpace c = false)) :
    Split (TrimSpace (keys.flatMap (fun k => k ++ ['\n']))) '\n' = keys := by
  obtain ⟨init, last, hk⟩ := (List.eq_nil_or_concat keys).resolve_left hne
  rw [List.concat_eq_append] at hk
  subst hk
  have hlast := hkey last (by simp)
  have hinit : ∀ k ∈ init, k ≠ [] ∧ '\n' ∉ k ∧ (∀ c, k.head? = some c → isSpace c = false)
      ∧ (∀ c, k.getLast? = some c → isSpace c = false) :=
    fun k hk => hkey k (by simp [hk])
  have e : (init ++ [last]).flatMap (fun k => k ++ ['\n'])
      = [] ++ (init.flatMap (fun k => k ++ ['\n']) ++ last) ++ ['\n'] := by
    simp [List.flatMap_append]
  rw [e, TrimSpace_sandwich [] _ ['\n'] (by simp) (by intro c hc; simp at hc; subst hc; decide)
    (fun c hc => head?_lines init last c (fun k hk => ⟨(hinit k hk).1, (hinit k hk).2.2.1⟩)
      hlast.2.2.1 hc)
    (by
      intro c hc
      rw [List.getLast?_append_of_ne_nil _ hlast.1] at hc
      exact hlast.2.2.2 c hc)]
  exact Split_lines init last (fun k hk => (hinit k hk).2.1) hlast.2.1

/-! ## Running the utility -/

theorem RunCmd_ok (w : World) (command : Str) (args : List Str) (out : Str)
    (h : w.Output command args = (out, none)) :
    RunCmd w command args
      = ({ w with events := w.events ++ [Event.exec command args] }, out, none) := by
  simp [RunCmd, h]

theorem RunCmd_err (w : World) (command : Str) (args : List Str) (e : ExecError)
    (h : (w.Output command args).2 = some e) :
    RunCmd w command args
      = ({ w with events := w.events ++ [Event.exec command args] }, [], some (.exec e)) := by
  unfold RunCmd
  rcases hO : w.Output command args with ⟨o, x⟩
  rw [hO] at h
  simp only at h
  subst h
  rfl

theorem RunCmd_events (w : World) (command : Str) (args : List Str) :
    (RunCmd w command args).1.events = w.events ++ [Event.exec command args] := by
  unfold RunCmd
  split <;> rfl

/-! ## Peer list -/

/-- C9. Peer list parsing: when the utility prints a non-empty sequence of
key texts, each non-empty, free of line feeds and neither starting nor ending
with white space, each followed by a line feed, `GetPeers` returns exactly
that sequence, in the same order. -/
theorem GetPeers_lines (w : World) (iface : Str) (keys : List Str) (hne : keys ≠ [])
    (hkey : ∀ k ∈ keys, k ≠ [] ∧ '\n' ∉ k ∧ (∀ c, k.head? = some c → isSpace c = false)
      ∧ (∀ c, k.getLast? = some c → isSpace c = false))
    (hrun : w.Output "wg".toList ["show".toList, iface, "peers".toList]
      = (keys.flatMap (fun k => k ++ ['\n']), none)) :
    (GetPeers w iface).2 = Outcome.ret keys := by
  unfold GetPeers
  rw [RunCmd_ok w _ _ _ hrun]
  simp only
  rw [Split_TrimSpace_lines keys hne hkey]

/-- C9, example of the specification: the output `keyA\nkeyB\nkeyC\n` is
parsed to the list `keyA`, `keyB`, `keyC`. -/
theorem GetPeers_lines_witness :
    (sampleWorld "keyA\nkeyB\nkeyC\n".toList none).Output "wg".toList
        ["show".toList, "wg0".toList, "peers".toList]
      = (["keyA".toList, "keyB".toList, "keyC".toList].flatMap (fun k => k ++ ['\n']), none)
    ∧ (GetPeers (sampleWorld "keyA\nkeyB\nkeyC\n".toList none) "wg0".toList).2
      = Outcome.ret ["keyA".toList, "keyB".toList, "keyC".toList] :=
  ⟨by decide,
   GetPeers_lines (sampleWorld "keyA\nkeyB\nkeyC\n".toList none) "wg0".toList
    ["keyA".toList, "keyB".toList, "keyC".toList] (by decide) (by decide) (by decide)⟩

/-- With no peer configured the utility prints nothing, and `GetPeers` returns
the list that holds one empty text, not the empty list. -/
theorem GetPeers_empty_output :
    (GetPeers (sampleWorld [] none) "wg0".toList).2 = Outcome.ret [[]] := by
  decide

/-! ## Execution failure -/

/-- C10. Query execution failure: for each of the five queries, when running
the utility fails with error `e`, the query ends in `log.Fatalln` with that
error and returns no value; the only call made is the one child process. -/
theorem query_exec_failure (w : World) (iface peer : Str) (e : ExecError) :
    ((w.Output "wg".toList ["show".toList, iface, "listen-port".toList]).2 = some e →
      (GetClientPort w iface).2 = Outcome.fatal "Error getting listen port:".toList (.exec e))
    ∧ ((w.Output "wg".toList ["show".toList, iface, "peers".toList]).2 = some e →
      (GetPeers w iface).2 = Outcome.fatal "Error getting peers:".toList (.exec e))
    ∧ ((w.Output "wg".toList ["show".toList, iface, "endpoints".toList]).2 = some e →
      (GetPeerEndpoint w peer iface).2
          = Outcome.fatal "Error getting peer endpoints".toList (.exec e)
        ∧ (GetPeerEndpoint w peer iface).1.events
          = w.events ++ [Event.exec "wg".toList ["show".toList, iface, "endpoints".toList]])
    ∧ ((w.Output "wg".toList ["show".toList, iface, "public-key".toList]).2 = some e →
      (GetClientPubkey w iface).2
        = Outcome.fatal "Error getting client pubkey:".toList (.exec e))
    ∧ ((w.Output "wg".toList ["show".toList, iface, "private-key".toList]).2 = some e →
      (GetClientPrivkey w iface).2
        = Outcome.fatal "Error getting client privkey:".toList (.exec e)) := by
  refine ⟨?_, ?_, ?_, ?_, ?_⟩
  · intro h; unfold GetClientPort; rw [RunCmd_err w _ _ e h]
  · intro h; unfold GetPeers; rw [RunCmd_err w _ _ e h]
  · intro h; unfold GetPeerEndpoint; rw [RunCmd_err w _ _ e h]; exact ⟨rfl, rfl⟩
  · intro h; unfold GetClientPubkey; rw [RunCmd_err w _ _ e h]
  · intro h; unfold GetClientPrivkey; rw [RunCmd_err w _ _ e h]

/-- C10 at a world in which every command exits with status 1 after printing
a port number: none of the five queries returns a value. -/
theorem query_exec_failure_witness :
    (GetClientPort (sampleWorld "51820\n".toList (some ⟨"exit status 1".toList⟩))
        "wg0".toList).2
      = Outcome.fatal "Error getting listen port:".toList (.exec ⟨"exit status 1".toList⟩)
    ∧ (GetPeers (sampleWorld "51820\n".toList (some ⟨"exit status 1".toList⟩))
        "wg0".toList).2
      = Outcome.fatal "Error getting peers:".toList (.exec ⟨"exit status 1".toList⟩)
    ∧ (GetPeerEndpoint (sampleWorld "51820\n".toList (some ⟨"exit status 1".toList⟩))
        "key".toList "wg0".toList).2
      = Outcome.fatal "Error getting peer endpoints".toList (.exec ⟨"exit status 1".toList⟩)
    ∧ (GetClientPubkey (sampleWorld "51820\n".toList (some ⟨"exit status 1".toList⟩))
        "wg0".toList).2
      = Outcome.fatal "Error getting client pubkey:".toList (.exec ⟨"exit status 1".toList⟩)
    ∧ (GetClientPrivkey (sampleWorld "51820\n".toList (some ⟨"exit status 1".toList⟩))
        "wg0".toList).2
      = Outcome.fatal "Error getting client privkey:".toList
          (.exec ⟨"exit status 1".toList⟩) :=
  ⟨(query_exec_failure (sampleWorld "51820\n".toList (some ⟨"exit status 1".toList⟩))
      "wg0".toList "key".toList ⟨"exit status 1".toList⟩).1 rfl,
   (query_exec_failure (sampleWorld "51820\n".toList (some ⟨"exit status 1".toList⟩))
      "wg0".toList "key".toList ⟨"exit status 1".toList⟩).2.1 rfl,
   ((query_exec_failure (sampleWorld "51820\n".toList (some ⟨"exit status 1".toList⟩))
      "wg0".toList "key".toList ⟨"exit status 1".toList⟩).2.2.1 rfl).1,
   (query_exec_failure (sampleWorld "51820\n".toList (some ⟨"exit status 1".toList⟩))
      "wg0".toList "key".toList ⟨"exit status 1".toList⟩).2.2.2.1 rfl,
   (query_exec_failure (sampleWorld "51820\n".toList (some ⟨"exit status 1".toList⟩))
      "wg0".toList "key".toList ⟨"exit status 1".toList⟩).2.2.2.2 rfl⟩

/-! ## Updating a peer -/

/-- C8, the code at a failing subprocess: `RunCmd` reports the failure, and
`SetPeer` returns normally, with the same result as when the subprocess
succeeds. -/
theorem SetPeer_drops_failure :
    (RunCmd (sampleWorld [] (some ⟨"exit status 1".toList⟩)) "wg".toList
        ["set".toList, "wg0".toList, "peer".toList, EncodeToString sampleKey.val,
         "persistent-keepalive".toList, "25".toList,
         "endpoint".toList, "203.0.113.5:51820".toList]).2.2
      = some (.exec ⟨"exit status 1".toList⟩)
    ∧ (SetPeer (sampleWorld [] (some ⟨"exit status 1".toList⟩))
        ⟨sampleKey, [203, 0, 113, 5], 51820⟩ 25 "wg0".toList).2 = Outcome.ret ()
    ∧ (SetPeer (sampleWorld [] none)
        ⟨sampleKey, [203, 0, 113, 5], 51820⟩ 25 "wg0".toList).2 = Outcome.ret () :=
  ⟨rfl, rfl, rfl⟩

/-! ## Endpoint lookup -/

theorem HasPrefix_iff (s pfx : Str) : HasPrefix s pfx = true ↔ pfx <+: s := by
  unfold HasPrefix
  exact List.isPrefixOf_iff_prefix

theorem TrimPrefix_append (pfx rest : Str) : TrimPrefix (pfx ++ rest) pfx = rest := by
  have h : HasPrefix (pfx ++ rest) pfx = true := (HasPrefix_iff _ _).2 (List.prefix_append _ _)
  simp [TrimPrefix, h]

theorem endpointLoop_miss (w : World) (pfx : Str) (lines : List Str)
    (h : ∀ l ∈ lines, ¬ pfx <+: l) :
    endpointLoop w pfx lines
      = (w, none, some (.errorsNew "peer pubkey not found in endpoints".toList)) := by
  induction lines with
  | nil => rfl
  | cons l ls ih =>
    have hl : HasPrefix l pfx = false := by
      rw [Bool.eq_false_iff]
      exact fun e => h l (List.mem_cons_self _ _) ((HasPrefix_iff _ _).1 e)
    unfold endpointLoop
    rw [if_neg (by simp [hl])]
    exact ih (fun x hx => h x (List.mem_cons_of_mem _ hx))

theorem endpointLoop_hit (w : World) (pfx rest : Str) (pre post : List Str)
    (h : ∀ l ∈ pre, ¬ pfx <+: l) :
    endpointLoop w pfx (pre ++ (pfx ++ rest) :: post)
      = ({ w with events := w.events ++ [Event.resolve "udp".toList rest] },
          (w.Resolve "udp".toList rest).1, (w.Resolve "udp".toList rest).2.map GoError.addr) := by
  induction pre with
  | nil =>
    have hp : HasPrefix (pfx ++ rest) pfx = true :=
      (HasPrefix_iff _ _).2 (List.prefix_append _ _)
    simp only [List.nil_append]
    unfold endpointLoop
    rw [if_pos hp, TrimPrefix_append]
  | cons l ls ih =>
    have hl : HasPrefix l pfx = false := by
      rw [Bool.eq_false_iff]
      exact fun e => h l (List.mem_cons_self _ _) ((HasPrefix_iff _ _).1 e)
    simp only [List.cons_append]
    unfold endpointLoop
    rw [if_neg (by simp [hl])]
    exact ih (fun x hx => h x (List.mem_cons_of_mem _ hx))

/-- A list with a line that begins with `pfx` splits at the first such line. -/
theorem first_match (pfx : Str) (lines : List Str) (h : ∃ l ∈ lines, pfx <+: l) :
    ∃ pre rest post, lines = pre ++ (pfx ++ rest) :: post ∧ ∀ l ∈ pre, ¬ pfx <+: l := by
  induction lines with
  | nil => obtain ⟨l, hl, _⟩ := h; simp at hl
  | cons a ls ih =>
    by_cases ha : pfx <+: a
    · obtain ⟨rest, rfl⟩ := ha
      exact ⟨[], rest, ls, rfl, by simp⟩
    · obtain ⟨l, hl, hp⟩ := h
      have hl2 : l ∈ ls := by
        rcases List.mem_cons.1 hl with e | e
        · exact absurd (e ▸ hp) ha
        · exact e
      obtain ⟨pre, rest, post, e, hpre⟩ := ih ⟨l, hl2, hp⟩
      refine ⟨a :: pre, rest, post, by rw [e]; rfl, ?_⟩
      intro x hx
      rcases List.mem_cons.1 hx with e2 | e2
      · exact e2 ▸ ha
      · exact hpre x e2

/-- C3. Endpoint lookup hit: when the output of the utility, split at line
feeds, has a line `KEY <TAB> HOST:PORT`, then `GetPeerEndpoint` returns what
resolving as a UDP address the remainder, after `KEY <TAB>`, of the first line
beginning with `KEY <TAB>` gives; that is the only address it resolves, and
the result is not the not-found error. -/
theorem GetPeerEndpoint_hit (w : World) (peer iface output hostport : Str)
    (hrun : w.Output "wg".toList ["show".toList, iface, "endpoints".toList] = (output, none))
    (hline : peer ++ '\t' :: hostport ∈ Split output '\n') :
    ∃ pre rest post,
      Split output '\n' = pre ++ (peer ++ '\t' :: rest) :: post
      ∧ (∀ l ∈ pre, ¬ (peer ++ ['\t']) <+: l)
      ∧ (GetPeerEndpoint w peer iface).2
        = Outcome.ret ((w.Resolve "udp".toList rest).1,
            (w.Resolve "udp".toList rest).2.map GoError.addr)
      ∧ (GetPeerEndpoint w peer iface).1.events
        = w.events ++ [Event.exec "wg".toList ["show".toList, iface, "endpoints".toList],
            Event.resolve "udp".toList rest]
      ∧ (GetPeerEndpoint w peer iface).2
        ≠ Outcome.ret (none, some (.errorsNew "peer pubkey not found in endpoints".toList)) := by
  obtain ⟨pre, rest, post, e, hpre⟩ := first_match (peer ++ ['\t']) (Split output '\n')
    ⟨_, hline, ⟨hostport, by simp⟩⟩
  have e2 : Split output '\n' = pre ++ (peer ++ '\t' :: rest) :: post := by
    rw [e]; simp
  have hres : (GetPeerEndpoint w peer iface).2
        = Outcome.ret ((w.Resolve "udp".toList rest).1,
            (w.Resolve "udp".toList rest).2.map GoError.addr) := by
    unfold GetPeerEndpoint
    rw [RunCmd_ok w _ _ _ hrun]
    simp only
    rw [e, endpointLoop_hit _ _ _ _ _ hpre]
  refine ⟨pre, rest, post, e2, hpre, hres, ?_, ?_⟩
  · unfold GetPeerEndpoint
    rw [RunCmd_ok w _ _ _ hrun]
    simp only
    rw [e, endpointLoop_hit _ _ _ _ _ hpre]
    simp
  · rw [hres]
    intro hc
    injection hc with hc
    have h2 := congrArg Prod.snd hc
    simp only at h2
    cases hr : (w.Resolve "udp".toList rest).2 with
    | none => rw [hr] at h2; simp at h2
    | some x => rw [hr] at h2; simp at h2

/-- C3 at the output `keyA<TAB>198.51.100.7:4000\nkeyB<TAB>203.0.113.5:51820\n`
and the key `keyB`. -/
theorem GetPeerEndpoint_hit_witness :
    ∃ pre rest post,
      Split "keyA\t198.51.100.7:4000\nkeyB\t203.0.113.5:51820\n".toList '\n'
        = pre ++ ("keyB".toList ++ '\t' :: rest) :: post
      ∧ (∀ l ∈ pre, ¬ ("keyB".toList ++ ['\t']) <+: l)
      ∧ (GetPeerEndpoint
          (sampleWorld "keyA\t198.51.100.7:4000\nkeyB\t203.0.113.5:51820\n".toList none)
          "keyB".toList "wg0".toList).2
        = Outcome.ret (((sampleWorld
              "keyA\t198.51.100.7:4000\nkeyB\t203.0.113.5:51820\n".toList none).Resolve
              "udp".toList rest).1,
            ((sampleWorld
              "keyA\t198.51.100.7:4000\nkeyB\t203.0.113.5:51820\n".toList none).Resolve
              "udp".toList rest).2.map GoError.addr)
      ∧ (GetPeerEndpoint
          (sampleWorld "keyA\t198.51.100.7:4000\nkeyB\t203.0.113.5:51820\n".toList none)
          "keyB".toList "wg0".toList).1.events
        = (sampleWorld "keyA\t198.51.100.7:4000\nkeyB\t203.0.113.5:51820\n".toList none).events
          ++ [Event.exec "wg".toList ["show".toList, "wg0".toList, "endpoints".toList],
            Event.resolve "udp".toList rest]
      ∧ (GetPeerEndpoint
          (sampleWorld "keyA\t198.51.100.7:4000\nkeyB\t203.0.113.5:51820\n".toList none)
          "keyB".toList "wg0".toList).2
        ≠ Outcome.ret (none, some (.errorsNew "peer pubkey not found in endpoints".toList)) :=
  GetPeerEndpoint_hit
    (sampleWorld "keyA\t198.51.100.7:4000\nkeyB\t203.0.113.5:51820\n".toList none)
    "keyB".toList "wg0".toList "keyA\t198.51.100.7:4000\nkeyB\t203.0.113.5:51820\n".toList
    "203.0.113.5:51820".toList rfl (by decide)

/-- For a key without a tab, a line begins with the key and a tab exactly when
the line has a tab and the text before its first tab is the key. -/
theorem begins_iff_keyField (peer line : Str) (h : '\t' ∉ peer) :
    (peer ++ ['\t']) <+: line
      ↔ '\t' ∈ line ∧ line.takeWhile (fun c => c != '\t') = peer := by
  constructor
  · rintro ⟨rest, rfl⟩
    refine ⟨by simp, ?_⟩
    induction peer with
    | nil => simp
    | cons a p ih =>
      have ha : a ≠ '\t' := fun e => h (e ▸ List.mem_cons_self _ _)
      have hp : '\t' ∉ p := fun e => h (List.mem_cons_of_mem _ e)
      simp only [List.cons_append, List.takeWhile_cons, bne_iff_ne, ne_eq, ha,
        not_false_eq_true, decide_True, if_true, List.cons.injEq, true_and]
      simpa using ih hp
  · rintro ⟨hmem, rfl⟩
    clear h
    induction line with
    | nil => simp at hmem
    | cons a l ih =>
      by_cases ha : a = '\t'
      · subst ha
        simp
      · have hl : '\t' ∈ l := by
          rcases List.mem_cons.1 hmem with e | e
          · exact absurd e.symm ha
          · exact e
        have hne : (a != '\t') = true := by simpa using ha
        rw [List.takeWhile_cons, hne]
        simp only [if_true, List.cons_append]
        rw [List.cons_prefix_cons]
        exact ⟨rfl, ih hl⟩

/-- C4. Endpoint lookup miss: when no line of the output begins with
`KEY <TAB>`, `GetPeerEndpoint` returns no address and the ordinary error
`peer pubkey not found in endpoints`; it does not end the process and it
resolves no address, its only call being the child process. -/
theorem GetPeerEndpoint_miss (w : World) (peer iface output : Str)
    (hrun : w.Output "wg".toList ["show".toList, iface, "endpoints".toList] = (output, none))
    (hmiss : ∀ line ∈ Split output '\n', ¬ (peer ++ ['\t']) <+: line) :
    (GetPeerEndpoint w peer iface).2
        = Outcome.ret (none, some (.errorsNew "peer pubkey not found in endpoints".toList))
    ∧ (GetPeerEndpoint w peer iface).1.events
        = w.events ++ [Event.exec "wg".toList ["show".toList, iface, "endpoints".toList]] := by
  unfold GetPeerEndpoint
  rw [RunCmd_ok w _ _ _ hrun]
  simp only
  rw [endpointLoop_miss _ _ _ hmiss]
  exact ⟨rfl, rfl⟩

/-- C4 at the output `keyA<TAB>198.51.100.7:4000\n` and the absent key `keyB`. -/
theorem GetPeerEndpoint_miss_witness :
    (GetPeerEndpoint (sampleWorld "keyA\t198.51.100.7:4000\n".toList none)
        "keyB".toList "wg0".toList).2
        = Outcome.ret (none, some (.errorsNew "peer pubkey not found in endpoints".toList))
    ∧ (GetPeerEndpoint (sampleWorld "keyA\t198.51.100.7:4000\n".toList none)
        "keyB".toList "wg0".toList).1.events
        = (sampleWorld "keyA\t198.51.100.7:4000\n".toList none).events
          ++ [Event.exec "wg".toList ["show".toList, "wg0".toList, "endpoints".toList]] :=
  GetPeerEndpoint_miss (sampleWorld "keyA\t198.51.100.7:4000\n".toList none)
    "keyB".toList "wg0".toList "keyA\t198.51.100.7:4000\n".toList rfl (by decide)

/-! ## Decimal texts -/

theorem digitVal_of_digit (c : Char) (h : isDecDigit c = true) :
    digitVal c = some (c.toNat - 48) ∧ c.toNat - 48 < 10 := by
  simp only [isDecDigit, Bool.and_eq_true, decide_eq_true_eq] at h
  unfold digitVal
  simp only
  rw [if_pos h]
  exact ⟨rfl, by omega⟩

theorem digitVal_not_digit (c : Char) (h : isDecDigit c = false) (d : Nat)
    (hd : digitVal c = some d) : d ≥ 10 := by
  have h : ¬ (48 ≤ c.toNat ∧ c.toNat ≤ 57) := by
    intro hh
    simp [isDecDigit, hh.1, hh.2] at h
  unfold digitVal at hd
  simp only at hd
  rw [if_neg h] at hd
  split at hd
  · injection hd with hd; omega
  · split at hd
    · injection hd with hd; omega
    · exact absurd hd (by simp)

theorem le_readFrom (cs : Str) (n : Nat) : n ≤ readFrom n cs := by
  induction cs generalizing n with
  | nil => exact Nat.le_refl _
  | cons c cs ih =>
    have := ih (10 * n + (c.toNat - 48))
    simp only [readFrom, List.foldl_cons] at this ⊢
    omega

/-- On digits whose value stays within 16 bits the loop of `ParseUint` reads
that value. -/
theorem parseLoop_ok (cs : Str) (n : Nat) (hd : cs.all isDecDigit = true)
    (hv : readFrom n cs ≤ 65535) : parseLoop 65535 n cs = (readFrom n cs, none) := by
  induction cs generalizing n with
  | nil => rfl
  | cons c cs ih =>
    simp only [List.all_cons, Bool.and_eq_true] at hd
    obtain ⟨hc, hvc⟩ := digitVal_of_digit c hd.1
    have hstep : readFrom n (c :: cs) = readFrom (10 * n + (c.toNat - 48)) cs := rfl
    rw [hstep] at hv ⊢
    have hle := le_readFrom cs (10 * n + (c.toNat - 48))
    unfold parseLoop
    rw [hc]
    simp only
    rw [if_neg (by omega), if_neg (by omega)]
    have e1 : (n * 10 % 2 ^ 64 + (c.toNat - 48)) % 2 ^ 64 = 10 * n + (c.toNat - 48) := by omega
    have e2 : n * 10 % 2 ^ 64 = 10 * n := by omega
    rw [e1, e2, if_neg (by omega)]
    exact ih _ hd.2 hv

/-- On anything else the loop of `ParseUint` ends in an error. -/
theorem parseLoop_err (cs : Str) (n : Nat) (hn : n ≤ 65535)
    (h : ¬ (cs.all isDecDigit = true ∧ readFrom n cs ≤ 65535)) :
    ∃ v err, parseLoop 65535 n cs = (v, some err)
      ∧ (err = GoError.numSyntax ∨ err = GoError.numRange) := by
  induction cs generalizing n with
  | nil => exact absurd ⟨rfl, hn⟩ h
  | cons c cs ih =>
    unfold parseLoop
    cases hdc : isDecDigit c with
    | false =>
      cases hv : digitVal c with
      | none => exact ⟨0, _, rfl, Or.inl rfl⟩
      | some d =>
        have := digitVal_not_digit c hdc d hv
        simp only
        rw [if_pos this]
        exact ⟨0, _, rfl, Or.inl rfl⟩
    | true =>
      obtain ⟨hc, hvc⟩ := digitVal_of_digit c hdc
      rw [hc]
      simp only
      rw [if_neg (by omega), if_neg (by omega)]
      have e1 : (n * 10 % 2 ^ 64 + (c.toNat - 48)) % 2 ^ 64 = 10 * n + (c.toNat - 48) := by
        omega
      have e2 : n * 10 % 2 ^ 64 = 10 * n := by omega
      rw [e1, e2]
      by_cases hbig : 10 * n + (c.toNat - 48) > 65535
      · rw [if_pos (Or.inr hbig)]
        exact ⟨65535, _, rfl, Or.inr rfl⟩
      · rw [if_neg (by omega)]
        apply ih _ (by omega)
        intro hh
        apply h
        simp only [List.all_cons, Bool.and_eq_true]
        exact ⟨⟨hdc, hh.1⟩, hh.2⟩

theorem decimalValue_eq (t : Str) : decimalValue t = readFrom 0 t := rfl

theorem isPortText_iff (t : Str) :
    isPortText t = true ↔ t ≠ [] ∧ t.all isDecDigit = true ∧ decimalValue t ≤ 65535 := by
  cases t with
  | nil => simp [isPortText]
  | cons c cs => simp [isPortText, and_assoc]

/-- The call `ParseUint(t, 10, 16)` on a port text gives its value. -/
theorem ParseUint_ok (t : Str) (h : isPortText t = true) :
    ParseUint t 16 = (decimalValue t, none) := by
  obtain ⟨hne, hd, hv⟩ := (isPortText_iff t).1 h
  unfold ParseUint
  rw [if_neg hne]
  exact parseLoop_ok t 0 hd hv

/-- The call `ParseUint(t, 10, 16)` on any other text gives an error. -/
theorem ParseUint_err (t : Str) (h : isPortText t = false) :
    ∃ v err, ParseUint t 16 = (v, some err)
      ∧ (err = GoError.numSyntax ∨ err = GoError.numRange) := by
  unfold ParseUint
  by_cases hne : t = []
  · rw [if_pos hne]; exact ⟨0, _, rfl, Or.inl rfl⟩
  · rw [if_neg hne]
    apply parseLoop_err t 0 (by omega)
    intro hh
    have := (isPortText_iff t).2 ⟨hne, hh.1, hh.2⟩
    rw [h] at this
    exact absurd this (by simp)

theorem isDecDigit_digitChar (d : Nat) (h : d < 10) :
    isDecDigit (digitChar d) = true ∧ (digitChar d).toNat - 48 = d := by
  interval_cases d <;> exact ⟨by decide, by decide⟩

/-- The digits written by `formatBits` are a decimal text of the number. -/
theorem formatBits_spec (fuel u : Nat) (acc : Str) (h : u < 10 ^ (fuel + 1)) :
    ∃ ds, formatBits fuel u acc = ds ++ acc ∧ ds ≠ [] ∧ ds.all isDecDigit = true
      ∧ readFrom 0 ds = u := by
  induction fuel generalizing u acc with
  | zero =>
    have hu : u < 10 := by simpa using h
    refine ⟨[digitChar u], ?_, by simp, ?_, ?_⟩
    · simp [formatBits, Nat.mod_eq_of_lt hu]
    · simp [(isDecDigit_digitChar u hu).1]
    · simp [readFrom, (isDecDigit_digitChar u hu).2]
  | succ fuel ih =>
    unfold formatBits
    by_cases hu : u ≥ 10
    · rw [if_pos hu]
      have hdiv : u / 10 < 10 ^ (fuel + 1) := by
        rw [Nat.div_lt_iff_lt_mul (by decide)]
        rw [pow_succ] at h
        exact h
      obtain ⟨ds, e, _, hall, hval⟩ := ih (u / 10) (digitChar (u % 10) :: acc) hdiv
      have hm := isDecDigit_digitChar (u % 10) (Nat.mod_lt _ (by decide))
      refine ⟨ds ++ [digitChar (u % 10)], by rw [e]; simp, by simp, ?_, ?_⟩
      · simp [List.all_append, hall, hm.1]
      · simp only [readFrom, List.foldl_append, List.foldl_cons, List.foldl_nil] at hval ⊢
        rw [hval, hm.2]
        omega
    · rw [if_neg hu]
      have hu : u < 10 := by omega
      refine ⟨[digitChar u], rfl, by simp, ?_, ?_⟩
      · simp [(isDecDigit_digitChar u hu).1]
      · simp [readFrom, (isDecDigit_digitChar u hu).2]

/-- The text of `FormatUint` is a non-empty text of decimal digits denoting
the number. -/
theorem FormatUint_spec (u : Nat) (h : u < 2 ^ 64) :
    FormatUint u ≠ [] ∧ (FormatUint u).all isDecDigit = true
      ∧ decimalValue (FormatUint u) = u := by
  obtain ⟨ds, e, hne, hall, hval⟩ := formatBits_spec 19 (u % 2 ^ 64) []
    (by rw [Nat.mod_eq_of_lt h]; exact lt_trans h (by norm_num))
  rw [List.append_nil] at e
  unfold FormatUint
  rw [e, decimalValue_eq, hval, Nat.mod_eq_of_lt h]
  exact ⟨hne, hall, rfl⟩

theorem not_isSpace_of_digit (c : Char) (h : isDecDigit c = true) : isSpace c = false := by
  simp only [isDecDigit, Bool.and_eq_true, decide_eq_true_eq] at h
  unfold isSpace
  simp only
  rw [if_pos (by omega)]
  simp only [Bool.or_eq_false_iff, beq_eq_false_iff_ne, ne_eq]
  omega

theorem head_not_space (t : Str) (h : ∀ c ∈ t, isSpace c = false) (c : Char)
    (hc : t.head? = some c) : isSpace c = false :=
  h c (List.mem_of_mem_head? hc)

theorem last_not_space (t : Str) (h : ∀ c ∈ t, isSpace c = false) (c : Char)
    (hc : t.getLast? = some c) : isSpace c = false :=
  h c (List.mem_of_mem_getLast? hc)

/-- Trimming removes the white space around a text that has none. -/
theorem TrimSpace_around (pre mid post : Str)
    (hpre : ∀ c ∈ pre, isSpace c = true) (hpost : ∀ c ∈ post, isSpace c = true)
    (hmid : ∀ c ∈ mid, isSpace c = false) : TrimSpace (pre ++ mid ++ post) = mid :=
  TrimSpace_sandwich pre mid post hpre hpost (head_not_space mid hmid) (last_not_space mid hmid)

/-! ## Listening port -/

/-- C5. Port round trip: for every port `p` from 0 to 65535, when the utility
prints the decimal text of `p`, with any white space before and after it,
`GetClientPort` returns exactly `p`. -/
theorem GetClientPort_round_trip (w : World) (iface pre post : Str) (p : Nat)
    (hp : p ≤ 65535)
    (hpre : ∀ c ∈ pre, isSpace c = true) (hpost : ∀ c ∈ post, isSpace c = true)
    (hrun : w.Output "wg".toList ["show".toList, iface, "listen-port".toList]
      = (pre ++ FormatUint p ++ post, none)) :
    (GetClientPort w iface).2 = Outcome.ret p := by
  obtain ⟨hne, hall, hval⟩ := FormatUint_spec p (by omega)
  have htrim : TrimSpace (pre ++ FormatUint p ++ post) = FormatUint p :=
    TrimSpace_around pre _ post hpre hpost
      (fun c hc => not_isSpace_of_digit c (List.all_eq_true.1 hall c hc))
  have hport : isPortText (FormatUint p) = true :=
    (isPortText_iff _).2 ⟨hne, hall, by rw [hval]; exact hp⟩
  unfold GetClientPort
  rw [RunCmd_ok w _ _ _ hrun]
  simp only
  rw [htrim, ParseUint_ok _ hport, hval]
  simp only
  rw [Nat.mod_eq_of_lt (by omega)]

/-- C5 at port 51820 printed with a line feed after it. -/
theorem GetClientPort_round_trip_witness :
    (GetClientPort (sampleWorld ([] ++ FormatUint 51820 ++ ['\n']) none) "wg0".toList).2
      = Outcome.ret 51820 :=
  GetClientPort_round_trip (sampleWorld ([] ++ FormatUint 51820 ++ ['\n']) none)
    "wg0".toList [] ['\n'] 51820 (by decide) (by decide) (by decide) rfl

/-- C6. Port rejection: when the white-space-trimmed output of the utility is
not an unsigned decimal integer in the range 0..65535 (it is empty, has a
character that is no decimal digit, such as a sign, or denotes a value above
65535), `GetClientPort` ends in `log.Fatalln` with a parse error and returns
no port. -/
theorem GetClientPort_rejects (w : World) (iface output : Str)
    (hrun : w.Output "wg".toList ["show".toList, iface, "listen-port".toList]
      = (output, none))
    (hbad : isPortText (TrimSpace output) = false) :
    ∃ err, (GetClientPort w iface).2
        = Outcome.fatal "Error parsing listen port:".toList err
      ∧ (err = GoError.numSyntax ∨ err = GoError.numRange) := by
  obtain ⟨v, err, e, herr⟩ := ParseUint_err _ hbad
  refine ⟨err, ?_, herr⟩
  unfold GetClientPort
  rw [RunCmd_ok w _ _ _ hrun]
  simp only
  rw [e]

/-- C6 at the output `65536\n`, one above the largest port. -/
theorem GetClientPort_rejects_witness :
    ∃ err, (GetClientPort (sampleWorld "65536\n".toList none) "wg0".toList).2
        = Outcome.fatal "Error parsing listen port:".toList err
      ∧ (err = GoError.numSyntax ∨ err = GoError.numRange) :=
  GetClientPort_rejects (sampleWorld "65536\n".toList none) "wg0".toList "65536\n".toList
    rfl (by decide)

/-! ## Base64 -/

theorem decodeMap_encChar (v : Nat) (h : v < 64) : decodeMap (encChar v) = some v := by
  have key : ∀ x : Fin 64, decodeMap (encChar x.val) = some x.val := by decide
  exact key ⟨v, h⟩

theorem isSpace_encChar (v : Nat) (h : v < 64) : isSpace (encChar v) = false := by
  have key : ∀ x : Fin 64, isSpace (encChar x.val) = false := by decide
  exact key ⟨v, h⟩

theorem decodeMap_padChar : decodeMap padChar = none := by decide

/-- Reading one character of the alphabet into an incomplete quantum. -/
theorem decodeLoop_push (dbuf : List Nat) (out : List Byte) (v : Nat) (cs : Str)
    (hv : v < 64) (hl : dbuf.length ≠ 3) :
    decodeLoop dbuf out (encChar v :: cs) = decodeLoop (dbuf ++ [v]) out cs := by
  rw [decodeLoop, decodeMap_encChar v hv]
  simp only
  rw [if_neg hl]

/-- Reading the fourth character of a quantum. -/
theorem decodeLoop_full (dbuf : List Nat) (out : List Byte) (v : Nat) (cs : Str)
    (hv : v < 64) (hl : dbuf.length = 3) :
    decodeLoop dbuf out (encChar v :: cs)
      = decodeLoop [] (out ++ quantumBytes (dbuf ++ [v])) cs := by
  rw [decodeLoop, decodeMap_encChar v hv]
  simp only
  rw [if_pos hl]

theorem quantumBytes_three (a b c : Byte) :
    quantumBytes [(a.val * 65536 + b.val * 256 + c.val) / 262144 % 64,
      (a.val * 65536 + b.val * 256 + c.val) / 4096 % 64,
      (a.val * 65536 + b.val * 256 + c.val) / 64 % 64,
      (a.val * 65536 + b.val * 256 + c.val) % 64] = [a, b, c] := by
  have ha := a.isLt
  have hb := b.isLt
  have hc := c.isLt
  simp only [quantumBytes, List.getD_cons_zero, List.getD_cons_succ, List.length_cons,
    List.length_nil, toByte]
  simp only [List.take, List.cons.injEq, and_true]
  refine ⟨Fin.ext ?_, Fin.ext ?_, Fin.ext ?_⟩ <;> simp only <;> omega

theorem quantumBytes_two (a b : Byte) :
    quantumBytes [(a.val * 65536 + b.val * 256) / 262144 % 64,
      (a.val * 65536 + b.val * 256) / 4096 % 64,
      (a.val * 65536 + b.val * 256) / 64 % 64] = [a, b] := by
  have ha := a.isLt
  have hb := b.isLt
  simp only [quantumBytes, List.getD_cons_zero, List.getD_cons_succ, List.length_cons,
    List.length_nil, toByte, List.getD_nil]
  simp only [List.take, List.cons.injEq, and_true]
  refine ⟨Fin.ext ?_, Fin.ext ?_⟩ <;> simp only <;> omega

theorem quantumBytes_one (a : Byte) :
    quantumBytes [(a.val * 65536) / 262144 % 64, (a.val * 65536) / 4096 % 64] = [a] := by
  have ha := a.isLt
  simp only [quantumBytes, List.getD_cons_zero, List.getD_cons_succ, List.length_cons,
    List.length_nil, toByte, List.getD_nil]
  simp only [List.take, List.cons.injEq, and_true]
  refine Fin.ext ?_
  simp only
  omega

/-- Decoding after encoding gives the bytes back, after the bytes decoded
before. -/
theorem decodeLoop_EncodeToString (l : List Byte) (out : List Byte) :
    decodeLoop [] out (EncodeToString l) = (out ++ l, none) := by
  induction l using EncodeToString.induct generalizing out with
  | case1 a b c rest ih =>
    rw [EncodeToString]
    rw [decodeLoop_push [] out _ _ (Nat.mod_lt _ (by decide)) (by decide)]
    rw [decodeLoop_push _ out _ _ (Nat.mod_lt _ (by decide)) (by simp)]
    rw [decodeLoop_push _ out _ _ (Nat.mod_lt _ (by decide)) (by simp)]
    rw [decodeLoop_full _ out _ _ (Nat.mod_lt _ (by decide)) (by simp)]
    simp only [List.nil_append, List.cons_append]
    rw [quantumBytes_three, ih]
    simp
  | case2 a b =>
    rw [EncodeToString]
    rw [decodeLoop_push [] out _ _ (Nat.mod_lt _ (by decide)) (by decide)]
    rw [decodeLoop_push _ out _ _ (Nat.mod_lt _ (by decide)) (by simp)]
    rw [decodeLoop_push _ out _ _ (Nat.mod_lt _ (by decide)) (by simp)]
    simp only [List.nil_append, List.cons_append]
    rw [decodeLoop, decodeMap_padChar]
    simp only [padChar, skipNewlines]
    rw [quantumBytes_two]
    simp
  | case3 a =>
    rw [EncodeToString]
    rw [decodeLoop_push [] out _ _ (Nat.mod_lt _ (by decide)) (by decide)]
    rw [decodeLoop_push _ out _ _ (Nat.mod_lt _ (by decide)) (by simp)]
    simp only [List.nil_append, List.cons_append]
    rw [decodeLoop, decodeMap_padChar]
    simp [padChar, skipNewlines]
    exact quantumBytes_one a
  | case4 => simp [EncodeToString, decodeLoop]

/-- Base64 round trip: `DecodeString(EncodeToString(b)) = b`, without error. -/
theorem DecodeString_EncodeToString (l : List Byte) :
    DecodeString (EncodeToString l) = (l, none) := by
  unfold DecodeString
  rw [decodeLoop_EncodeToString]
  rfl

theorem isSpace_padChar : isSpace padChar = false := by decide

/-- The encoded text has no white space. -/
theorem EncodeToString_no_space (l : List Byte) :
    ∀ c ∈ EncodeToString l, isSpace c = false := by
  induction l using EncodeToString.induct with
  | case1 a b c rest ih =>
    rw [EncodeToString]
    intro x hx
    simp only [List.mem_cons] at hx
    rcases hx with h | h | h | h | h
    · rw [h]; exact isSpace_encChar _ (Nat.mod_lt _ (by decide))
    · rw [h]; exact isSpace_encChar _ (Nat.mod_lt _ (by decide))
    · rw [h]; exact isSpace_encChar _ (Nat.mod_lt _ (by decide))
    · rw [h]; exact isSpace_encChar _ (Nat.mod_lt _ (by decide))
    · exact ih x h
  | case2 a b =>
    rw [EncodeToString]
    intro x hx
    simp only [List.mem_cons, List.mem_singleton, List.not_mem_nil, or_false] at hx
    rcases hx with h | h | h | h
    · rw [h]; exact isSpace_encChar _ (Nat.mod_lt _ (by decide))
    · rw [h]; exact isSpace_encChar _ (Nat.mod_lt _ (by decide))
    · rw [h]; exact isSpace_encChar _ (Nat.mod_lt _ (by decide))
    · rw [h]; exact isSpace_padChar
  | case3 a =>
    rw [EncodeToString]
    intro x hx
    simp only [List.mem_cons, List.mem_singleton, List.not_mem_nil, or_false] at hx
    rcases hx with h | h | h | h
    · rw [h]; exact isSpace_encChar _ (Nat.mod_lt _ (by decide))
    · rw [h]; exact isSpace_encChar _ (Nat.mod_lt _ (by decide))
    · rw [h]; exact isSpace_padChar
    · rw [h]; exact isSpace_padChar
  | case4 => intro x hx; simp [EncodeToString] at hx

/-- Copying 32 bytes into the key array gives those bytes. -/
theorem keyOfCopy_val (K : Key) : keyOfCopy K.val = K := by
  apply Subtype.ext
  show copy zeroArr K.val = K.val
  have h := K.property
  unfold copy zeroArr
  simp [h]

/-- After the copy the key holds the first 32 decoded bytes, then zeros. -/
theorem keyOfCopy_eq (bs : List Byte) :
    (keyOfCopy bs).val = bs.take 32 ++ List.replicate (32 - bs.length) 0 := by
  show copy zeroArr bs = _
  simp only [copy, zeroArr, List.length_replicate, List.drop_replicate]

/-! ## Keys -/

/-- C2. Key round trip: for every 32-byte key `K`, when the utility prints the
standard base64 text of `K` as `SetPeer` encodes it, with any white space
before and after it, `GetClientPubkey` and `GetClientPrivkey` return exactly
`K`; decoding the encoded key gives the key. -/
theorem key_round_trip (w : World) (iface pre post : Str) (K : Key)
    (hpre : ∀ c ∈ pre, isSpace c = true) (hpost : ∀ c ∈ post, isSpace c = true) :
    DecodeString (EncodeToString K.val) = (K.val, none)
    ∧ (w.Output "wg".toList ["show".toList, iface, "public-key".toList]
          = (pre ++ EncodeToString K.val ++ post, none) →
        (GetClientPubkey w iface).2 = Outcome.ret K)
    ∧ (w.Output "wg".toList ["show".toList, iface, "private-key".toList]
          = (pre ++ EncodeToString K.val ++ post, none) →
        (GetClientPrivkey w iface).2 = Outcome.ret K) := by
  have htrim : TrimSpace (pre ++ EncodeToString K.val ++ post) = EncodeToString K.val :=
    TrimSpace_around pre _ post hpre hpost (EncodeToString_no_space K.val)
  refine ⟨DecodeString_EncodeToString _, ?_, ?_⟩
  · intro hrun
    unfold GetClientPubkey
    rw [RunCmd_ok w _ _ _ hrun]
    simp only
    rw [htrim, DecodeString_EncodeToString]
    simp only
    rw [keyOfCopy_val]
  · intro hrun
    unfold GetClientPrivkey
    rw [RunCmd_ok w _ _ _ hrun]
    simp only
    rw [htrim, DecodeString_EncodeToString]
    simp only
    rw [keyOfCopy_val]

/-- C2 at the key with bytes 0 to 31, printed with a line feed after it. -/
theorem key_round_trip_witness :
    (GetClientPubkey (sampleWorld ([] ++ EncodeToString sampleKey.val ++ ['\n']) none)
        "wg0".toList).2 = Outcome.ret sampleKey
    ∧ (GetClientPrivkey (sampleWorld ([] ++ EncodeToString sampleKey.val ++ ['\n']) none)
        "wg0".toList).2 = Outcome.ret sampleKey :=
  ⟨(key_round_trip (sampleWorld ([] ++ EncodeToString sampleKey.val ++ ['\n']) none)
      "wg0".toList [] ['\n'] sampleKey (by decide) (by decide)).2.1 rfl,
   (key_round_trip (sampleWorld ([] ++ EncodeToString sampleKey.val ++ ['\n']) none)
      "wg0".toList [] ['\n'] sampleKey (by decide) (by decide)).2.2 rfl⟩

/-- C1 as stated fails: the empty output decodes, without error, to no byte
at all, a length other than 32, yet `GetClientPubkey` and `GetClientPrivkey`
return a key, the all-zero key; the output `AQID`, which decodes to three
bytes, gives a key too. -/
theorem key_length_not_checked :
    DecodeString (TrimSpace []) = ([], none)
    ∧ ([] : List Byte).length ≠ 32
    ∧ (GetClientPubkey (sampleWorld [] none) "wg0".toList).2 = Outcome.ret zeroKey
    ∧ (GetClientPrivkey (sampleWorld [] none) "wg0".toList).2 = Outcome.ret zeroKey
    ∧ DecodeString (TrimSpace "AQID\n".toList) = ([1, 2, 3], none)
    ∧ (GetClientPubkey (sampleWorld "AQID\n".toList none) "wg0".toList).2
      = Outcome.ret ⟨[1, 2, 3] ++ List.replicate 29 0, by decide⟩ := by
  refine ⟨by decide, by decide, by decide, by decide, by decide, by decide⟩

/-- C1, amended. When the utility ran, a trimmed output that fails to
base64-decode ends `GetClientPubkey` and `GetClientPrivkey` in `log.Fatalln`
with the decoding error; a trimmed output that decodes to bytes `bs`, of any
length, makes them return the key holding the first 32 bytes of `bs` followed
by zeros up to 32 bytes, which is `bs` itself when `bs` has 32 bytes. -/
theorem key_decode (w : World) (iface output : Str) :
    (w.Output "wg".toList ["show".toList, iface, "public-key".toList] = (output, none) →
      (∀ bs err, DecodeString (TrimSpace output) = (bs, some err) →
        (GetClientPubkey w iface).2
          = Outcome.fatal "Error parsing client pubkey:".toList err)
      ∧ (∀ bs, DecodeString (TrimSpace output) = (bs, none) →
        ∃ K : Key, (GetClientPubkey w iface).2 = Outcome.ret K
          ∧ K.val = bs.take 32 ++ List.replicate (32 - bs.length) 0
          ∧ (bs.length = 32 → K.val = bs)))
    ∧ (w.Output "wg".toList ["show".toList, iface, "private-key".toList] = (output, none) →
      (∀ bs err, DecodeString (TrimSpace output) = (bs, some err) →
        (GetClientPrivkey w iface).2
          = Outcome.fatal "Error parsing client privkey:".toList err)
      ∧ (∀ bs, DecodeString (TrimSpace output) = (bs, none) →
        ∃ K : Key, (GetClientPrivkey w iface).2 = Outcome.ret K
          ∧ K.val = bs.take 32 ++ List.replicate (32 - bs.length) 0
          ∧ (bs.length = 32 → K.val = bs))) := by
  refine ⟨fun hrun => ⟨?_, ?_⟩, fun hrun => ⟨?_, ?_⟩⟩
  · intro bs err hd
    unfold GetClientPubkey
    rw [RunCmd_ok w _ _ _ hrun]
    simp only
    rw [hd]
  · intro bs hd
    refine ⟨keyOfCopy bs, ?_, keyOfCopy_eq bs, ?_⟩
    · unfold GetClientPubkey
      rw [RunCmd_ok w _ _ _ hrun]
      simp only
      rw [hd]
    · intro h32
      rw [keyOfCopy_eq, h32]
      simp [List.take_of_length_le (Nat.le_of_eq h32)]
  · intro bs err hd
    unfold GetClientPrivkey
    rw [RunCmd_ok w _ _ _ hrun]
    simp only
    rw [hd]
  · intro bs hd
    refine ⟨keyOfCopy bs, ?_, keyOfCopy_eq bs, ?_⟩
    · unfold GetClientPrivkey
      rw [RunCmd_ok w _ _ _ hrun]
      simp only
      rw [hd]
    · intro h32
      rw [keyOfCopy_eq, h32]
      simp [List.take_of_length_le (Nat.le_of_eq h32)]

/-- C1, amended, at the output `AQID`, three bytes, which gives a key, and at
the output `AQ=`, no base64 text, which ends the process. -/
theorem key_decode_witness :
    (∃ K : Key,
      (GetClientPubkey (sampleWorld "AQID\n".toList none) "wg0".toList).2 = Outcome.ret K
        ∧ K.val = ([1, 2, 3] : List Byte).take 32
            ++ List.replicate (32 - ([1, 2, 3] : List Byte).length) 0
        ∧ (([1, 2, 3] : List Byte).length = 32 → K.val = [1, 2, 3]))
    ∧ (GetClientPrivkey (sampleWorld "AQ=\n".toList none) "wg0".toList).2
      = Outcome.fatal "Error parsing client privkey:".toList GoError.corruptInput :=
  ⟨((key_decode (sampleWorld "AQID\n".toList none) "wg0".toList "AQID\n".toList).1 rfl).2
      [1, 2, 3] (by decide),
   ((key_decode (sampleWorld "AQ=\n".toList none) "wg0".toList "AQ=\n".toList).2 rfl).1
      [] GoError.corruptInput (by decide)⟩

/-! ## The arguments of `SetPeer`: decimal texts -/

theorem digitChar_ne_zero (d : Nat) (h : d < 10) (h0 : d ≠ 0) : digitChar d ≠ '0' := by
  interval_cases d <;> first | exact absurd rfl h0 | decide

theorem formatBits_head (fuel u : Nat) (acc : Str) (h0 : u ≠ 0) (h : u < 10 ^ (fuel + 1)) :
    (formatBits fuel u acc).head? ≠ some '0' := by
  induction fuel generalizing u acc with
  | zero =>
    have hu : u < 10 := by simpa using h
    simp only [formatBits, Nat.mod_eq_of_lt hu, List.head?_cons, ne_eq, Option.some.injEq]
    exact digitChar_ne_zero u hu h0
  | succ fuel ih =>
    unfold formatBits
    by_cases hu : u ≥ 10
    · rw [if_pos hu]
      apply ih
      · omega
      · rw [Nat.div_lt_iff_lt_mul (by decide)]
        rw [pow_succ] at h
        exact h
    · rw [if_neg hu]
      simp only [List.head?_cons, ne_eq, Option.some.injEq]
      exact digitChar_ne_zero u (by omega) h0

/-- The text of `FormatUint` is the decimal text of the number. -/
theorem isDecimalOf_FormatUint (u : Nat) (h : u < 2 ^ 64) :
    isDecimalOf (FormatUint u) u = true := by
  obtain ⟨hne, hall, hval⟩ := FormatUint_spec u h
  have hcanon : (FormatUint u == ['0'] || (FormatUint u).head? != some '0') = true := by
    by_cases h0 : u = 0
    · subst h0; decide
    · have := formatBits_head 19 (u % 2 ^ 64) [] (by rw [Nat.mod_eq_of_lt h]; exact h0)
        (by rw [Nat.mod_eq_of_lt h]; exact lt_trans h (by norm_num))
      simp only [Bool.or_eq_true, bne_iff_ne, ne_eq]
      exact Or.inr this
  unfold isDecimalOf
  simp only [Bool.and_eq_true, decide_eq_true_eq]
  refine ⟨⟨⟨?_, hall⟩, hval⟩, hcanon⟩
  cases hf : FormatUint u with
  | nil => exact absurd hf hne
  | cons a l => rfl

/-- The text of `Itoa` is the decimal text of the integer. -/
theorem isDecimalOfInt_Itoa (k : Int) (hlo : -2 ^ 63 ≤ k) (hhi : k < 2 ^ 63) :
    isDecimalOfInt (Itoa k) k = true := by
  unfold isDecimalOfInt Itoa
  by_cases hk : k < 0
  · rw [if_pos hk, if_pos hk]
    exact isDecimalOf_FormatUint _ (by omega)
  · rw [if_neg hk, if_neg hk]
    exact isDecimalOf_FormatUint _ (by omega)

/-! ## The arguments of `SetPeer`: base64 -/

theorem sextetOf_encChar (v : Nat) (h : v < 64) : sextetOf (encChar v) = some v := by
  have key : ∀ x : Fin 64, sextetOf (encChar x.val) = some x.val := by decide
  exact key ⟨v, h⟩

/-- The number of padding characters for `n` bytes. -/
theorem pad_add_three (n : Nat) : (3 - (n + 3) % 3) % 3 = (3 - n % 3) % 3 := by
  rw [Nat.add_mod_right]

/-- The shape of the encoded text: characters of six-bit values that spell
the bytes, then the padding. -/
theorem EncodeToString_shape (bs : List Byte) :
    ∃ sx : List Nat, (∀ v ∈ sx, v < 64)
      ∧ EncodeToString bs
        = sx.map encChar ++ List.replicate ((3 - bs.length % 3) % 3) '='
      ∧ sx.length + (3 - bs.length % 3) % 3 = 4 * ((bs.length + 2) / 3)
      ∧ ∀ acc, digitsFrom 64 acc sx
        = digitsFrom 256 acc (bs.map Fin.val) * 2 ^ (2 * ((3 - bs.length % 3) % 3)) := by
  induction bs using EncodeToString.induct with
  | case1 a b c rest ih =>
    obtain ⟨sx, hlt, he, hlen, hval⟩ := ih
    have ha := a.isLt
    have hb := b.isLt
    have hc := c.isLt
    refine ⟨(a.val * 65536 + b.val * 256 + c.val) / 262144 % 64
      :: (a.val * 65536 + b.val * 256 + c.val) / 4096 % 64
      :: (a.val * 65536 + b.val * 256 + c.val) / 64 % 64
      :: (a.val * 65536 + b.val * 256 + c.val) % 64 :: sx, ?_, ?_, ?_, ?_⟩
    · intro v hv
      simp only [List.mem_cons] at hv
      rcases hv with h | h | h | h | h
      · rw [h]; exact Nat.mod_lt _ (by decide)
      · rw [h]; exact Nat.mod_lt _ (by decide)
      · rw [h]; exact Nat.mod_lt _ (by decide)
      · rw [h]; exact Nat.mod_lt _ (by decide)
      · exact hlt v h
    · rw [EncodeToString, he]
      simp only [List.length_cons, List.map_cons, List.cons_append]
      rw [show rest.length + 1 + 1 + 1 = rest.length + 3 from rfl, pad_add_three]
    · simp only [List.length_cons]
      rw [show rest.length + 1 + 1 + 1 = rest.length + 3 from rfl, pad_add_three]
      omega
    · intro acc
      simp only [List.length_cons]
      rw [show rest.length + 1 + 1 + 1 = rest.length + 3 from rfl, pad_add_three]
      have e1 : digitsFrom 64 acc
          ((a.val * 65536 + b.val * 256 + c.val) / 262144 % 64
            :: (a.val * 65536 + b.val * 256 + c.val) / 4096 % 64
            :: (a.val * 65536 + b.val * 256 + c.val) / 64 % 64
            :: (a.val * 65536 + b.val * 256 + c.val) % 64 :: sx)
          = digitsFrom 64 (256 * (256 * (256 * acc + a.val) + b.val) + c.val) sx := by
        simp only [digitsFrom, List.foldl_cons]
        congr 1
        omega
      have e2 : digitsFrom 256 acc (List.map Fin.val (a :: b :: c :: rest))
          = digitsFrom 256 (256 * (256 * (256 * acc + a.val) + b.val) + c.val)
              (List.map Fin.val rest) := by
        simp only [digitsFrom, List.map_cons, List.foldl_cons]
      rw [e1, e2, hval]
  | case2 a b =>
    have ha := a.isLt
    have hb := b.isLt
    refine ⟨[(a.val * 65536 + b.val * 256) / 262144 % 64,
      (a.val * 65536 + b.val * 256) / 4096 % 64,
      (a.val * 65536 + b.val * 256) / 64 % 64], ?_, ?_, ?_, ?_⟩
    · intro v hv
      simp only [List.mem_cons, List.mem_singleton, List.not_mem_nil, or_false] at hv
      rcases hv with h | h | h
      · rw [h]; exact Nat.mod_lt _ (by decide)
      · rw [h]; exact Nat.mod_lt _ (by decide)
      · rw [h]; exact Nat.mod_lt _ (by decide)
    · rw [EncodeToString]; rfl
    · simp
    · intro acc
      simp only [digitsFrom, List.map_cons, List.map_nil, List.foldl_cons, List.foldl_nil,
        List.length_cons, List.length_nil]
      norm_num
      omega
  | case3 a =>
    have ha := a.isLt
    refine ⟨[(a.val * 65536) / 262144 % 64, (a.val * 65536) / 4096 % 64], ?_, ?_, ?_, ?_⟩
    · intro v hv
      simp only [List.mem_cons, List.mem_singleton, List.not_mem_nil, or_false] at hv
      rcases hv with h | h
      · rw [h]; exact Nat.mod_lt _ (by decide)
      · rw [h]; exact Nat.mod_lt _ (by decide)
    · rw [EncodeToString]; rfl
    · simp
    · intro acc
      simp only [digitsFrom, List.map_cons, List.map_nil, List.foldl_cons, List.foldl_nil,
        List.length_cons, List.length_nil]
      norm_num
      omega
  | case4 =>
    refine ⟨[], by simp, by simp [EncodeToString], by simp, ?_⟩
    intro acc
    simp [digitsFrom]

/-- The text of `EncodeToString` is the padded standard base64 text of the
bytes. -/
theorem isBase64Of_EncodeToString (bs : List Byte) :
    isBase64Of (EncodeToString bs) bs = true := by
  obtain ⟨sx, hlt, he, hlen, hval⟩ := EncodeToString_shape bs
  have hl : (EncodeToString bs).length = sx.length + (3 - bs.length % 3) % 3 := by
    rw [he]; simp
  have hbody : (EncodeToString bs).take ((EncodeToString bs).length - (3 - bs.length % 3) % 3)
      = sx.map encChar := by
    rw [hl, Nat.add_sub_cancel, he]
    rw [List.take_left' (by simp)]
  have hdrop : (EncodeToString bs).drop ((EncodeToString bs).length - (3 - bs.length % 3) % 3)
      = List.replicate ((3 - bs.length % 3) % 3) '=' := by
    rw [hl, Nat.add_sub_cancel, he]
    rw [List.drop_left' (by simp)]
  have hmap : (sx.map encChar).map (fun c => (sextetOf c).getD 0) = sx := by
    rw [List.map_map]
    conv_rhs => rw [← List.map_id sx]
    apply List.map_congr_left
    intro v hv
    simp [sextetOf_encChar v (hlt v hv)]
  unfold isBase64Of
  simp only [hbody, hdrop, hmap, Bool.and_eq_true, decide_eq_true_eq, beq_self_eq_true,
    and_true]
  refine ⟨⟨by rw [hl, hlen], ?_⟩, hval 0⟩
  rw [List.all_eq_true]
  intro c hc
  obtain ⟨v, hv, rfl⟩ := List.mem_map.1 hc
  simp [sextetOf_encChar v (hlt v hv)]

/-! ## The arguments of `SetPeer`: hexadecimal texts -/

theorem hexChar_spec (d : Nat) (h : d < 16) :
    isHexDigit (hexChar d) = true ∧ hexDigitValue (hexChar d) = d
      ∧ (d ≠ 0 → hexChar d ≠ '0') := by
  have key : ∀ x : Fin 16, isHexDigit (hexChar x.val) = true
      ∧ hexDigitValue (hexChar x.val) = x.val ∧ (x.val ≠ 0 → hexChar x.val ≠ '0') := by
    decide
  exact key ⟨d, h⟩

theorem hexValue_append_singleton (ds : Str) (c : Char) :
    hexValue (ds ++ [c]) = 16 * hexValue ds + hexDigitValue c := by
  simp [hexValue, ofDigitsBE, digitsFrom, List.foldl_append]

/-- The digits written by `hexBits` are the hexadecimal text of the number. -/
theorem hexBits_spec (fuel u : Nat) (acc : Str) (h : u < 16 ^ (fuel + 1)) :
    ∃ ds, hexBits fuel u acc = ds ++ acc ∧ ds ≠ [] ∧ ds.all isHexDigit = true
      ∧ hexValue ds = u ∧ (u ≠ 0 → ds.head? ≠ some '0') ∧ (u = 0 → ds = ['0']) := by
  induction fuel generalizing u acc with
  | zero =>
    have hu : u < 16 := by simpa using h
    obtain ⟨h1, h2, h3⟩ := hexChar_spec u hu
    refine ⟨[hexChar u], ?_, by simp, by simp [h1], ?_, ?_, ?_⟩
    · simp [hexBits, Nat.mod_eq_of_lt hu]
    · simp [hexValue, ofDigitsBE, digitsFrom, h2]
    · intro h0; simpa using h3 h0
    · intro h0; subst h0; rfl
  | succ fuel ih =>
    unfold hexBits
    by_cases hu : u ≥ 16
    · rw [if_pos hu]
      have hdiv : u / 16 < 16 ^ (fuel + 1) := by
        rw [Nat.div_lt_iff_lt_mul (by decide)]
        rw [pow_succ] at h
        exact h
      obtain ⟨ds, e, hne, hall, hval, hhead, _⟩ := ih (u / 16) (hexChar (u % 16) :: acc) hdiv
      obtain ⟨h1, h2, _⟩ := hexChar_spec (u % 16) (Nat.mod_lt _ (by decide))
      refine ⟨ds ++ [hexChar (u % 16)], by rw [e]; simp, by simp, ?_, ?_, ?_, ?_⟩
      · simp [List.all_append, hall, h1]
      · rw [hexValue_append_singleton, hval, h2]; omega
      · intro _
        have := hhead (by omega)
        cases ds with
        | nil => exact absurd rfl hne
        | cons a l => simpa using this
      · intro h0; omega
    · rw [if_neg hu]
      have hu : u < 16 := by omega
      obtain ⟨h1, h2, h3⟩ := hexChar_spec u hu
      refine ⟨[hexChar u], rfl, by simp, by simp [h1], ?_, ?_, ?_⟩
      · simp [hexValue, ofDigitsBE, digitsFrom, h2]
      · intro h0; simpa using h3 h0
      · intro h0; subst h0; rfl

/-- The text of a 16-bit group is its hexadecimal text. -/
theorem isHexOf_hexBits (v : Nat) (h : v < 65536) : isHexOf (hexBits 3 v []) v = true := by
  obtain ⟨ds, e, hne, hall, hval, hhead, hzero⟩ := hexBits_spec 3 v [] (by simpa using h)
  rw [List.append_nil] at e
  rw [e]
  unfold isHexOf
  simp only [Bool.and_eq_true, decide_eq_true_eq, Bool.or_eq_true, bne_iff_ne, ne_eq,
    beq_iff_eq]
  refine ⟨⟨⟨?_, hall⟩, hval⟩, ?_⟩
  · cases ds with
    | nil => exact absurd rfl hne
    | cons a l => rfl
  · by_cases h0 : v = 0
    · exact Or.inl (hzero h0)
    · exact Or.inr (hhead h0)

theorem forall₂_map_hex (l : List Nat) (h : ∀ v ∈ l, v < 65536) :
    List.Forall₂ (fun t v => isHexOf t v = true) (l.map fun v => hexBits 3 v []) l := by
  induction l with
  | nil => exact List.Forall₂.nil
  | cons a l ih =>
    exact List.Forall₂.cons (isHexOf_hexBits a (h a (List.mem_cons_self _ _)))
      (ih fun v hv => h v (List.mem_cons_of_mem _ hv))

/-- Two hexadecimal digits for each byte spell the bytes. -/
theorem hexString_spec (ip : List Byte) :
    (hexString ip).length = 2 * ip.length ∧ (hexString ip).all isHexDigit = true
      ∧ ∀ acc, digitsFrom 16 acc ((hexString ip).map hexDigitValue)
        = digitsFrom 256 acc (ip.map Fin.val) := by
  induction ip with
  | nil => exact ⟨rfl, rfl, fun _ => rfl⟩
  | cons x xs ih =>
    obtain ⟨hl, hall, hval⟩ := ih
    have hx := x.isLt
    obtain ⟨a1, a2, _⟩ := hexChar_spec (x.val / 16) (by omega)
    obtain ⟨b1, b2, _⟩ := hexChar_spec (x.val % 16) (Nat.mod_lt _ (by decide))
    have e : hexString (x :: xs)
        = hexChar (x.val / 16) :: hexChar (x.val % 16) :: hexString xs := by
      simp [hexString, List.flatMap_cons]
    rw [e]
    refine ⟨by simp [hl]; omega, by simp [a1, b1, hall], ?_⟩
    intro acc
    simp only [digitsFrom, List.map_cons, List.foldl_cons, a2, b2]
    have := hval (16 * (16 * acc + x.val / 16) + x.val % 16)
    simp only [digitsFrom] at this
    rw [this]
    congr 1
    omega

/-! ## The arguments of `SetPeer`: runs of zero groups -/

theorem zeroLen_le_length (h : List Nat) : zeroLen h ≤ h.length := by
  induction h with
  | nil => exact Nat.le_refl _
  | cons x xs ih =>
    unfold zeroLen
    split
    · simp; exact ih
    · simp

theorem zerosAt_zero_iff (h : List Nat) (l : Nat) : zerosAt h 0 l ↔ l ≤ zeroLen h := by
  induction h generalizing l with
  | nil =>
    simp only [zerosAt, zeroLen, Nat.le_zero_eq]
    constructor
    · intro hz
      by_contra hl
      have := hz 0 (Nat.le_refl _) (by omega)
      simp at this
    · intro hl i _ hi; omega
  | cons x xs ih =>
    cases l with
    | zero =>
      simp only [Nat.zero_le, iff_true]
      intro i _ hi; omega
    | succ l =>
      have key : zerosAt (x :: xs) 0 (l + 1) ↔ x = 0 ∧ zerosAt xs 0 l := by
        constructor
        · intro hz
          refine ⟨by simpa using hz 0 (Nat.le_refl _) (by omega), ?_⟩
          intro i _ hi
          have := hz (i + 1) (by omega) (by omega)
          simpa using this
        · rintro ⟨hx, hz⟩ i _ hi
          cases i with
          | zero => simpa using hx
          | succ i =>
            have := hz i (by omega) (by omega)
            simpa using this
      rw [key, ih]
      have e : zeroLen (x :: xs) = if x = 0 then zeroLen xs + 1 else 0 := rfl
      rw [e]
      by_cases hx : x = 0
      · rw [if_pos hx]; simp [hx]
      · rw [if_neg hx]; simp [hx]

/-- A run of zero groups at `s` has length `l` exactly when the count of zero
groups from `s` on is at least `l`. -/
theorem zerosAt_iff (g : List Nat) (s l : Nat) :
    zerosAt g s l ↔ l ≤ zeroLen (g.drop s) := by
  rw [← zerosAt_zero_iff]
  constructor
  · intro hz i _ hi
    have := hz (s + i) (by omega) (by omega)
    rw [List.getD_eq_getElem?_getD] at this ⊢
    rw [List.getElem?_drop]
    exact this
  · intro hz i hs hi
    have := hz (i - s) (by omega) (by omega)
    rw [List.getD_eq_getElem?_getD] at this ⊢
    rw [List.getElem?_drop] at this
    rw [show s + (i - s) = i by omega] at this
    exact this

theorem RunInv_step (L : Nat → Nat) (z : Nat × Nat) (seen : List Nat) (r : Nat)
    (hlt : ∀ i ∈ seen, i < r) (h : RunInv L z seen) :
    RunInv L (runStep L z r) (seen ++ [r]) := by
  unfold runStep
  rcases h with ⟨hz, hall⟩ | ⟨s, hs, hz, h2, hmax, hleft⟩
  · subst hz
    by_cases hl : L r ≥ 2
    · rw [if_pos ⟨hl, by simp; omega⟩]
      right
      refine ⟨r, by simp, rfl, hl, ?_, ?_⟩
      · intro i hi
        rcases List.mem_append.1 hi with h | h
        · have := hall i h; omega
        · simp at h; subst h; exact Nat.le_refl _
      · intro i hi hir
        rcases List.mem_append.1 hi with h | h
        · have := hall i h; omega
        · simp at h; omega
    · rw [if_neg (fun hh => hl hh.1)]
      left
      refine ⟨rfl, ?_⟩
      intro i hi
      rcases List.mem_append.1 hi with h | h
      · exact hall i h
      · simp at h; subst h; omega
  · subst hz
    have hd : (s, s + L s).2 - (s, s + L s).1 = L s := by simp
    by_cases hl : L r ≥ 2 ∧ L r > L s
    · rw [if_pos (by rw [hd]; exact hl)]
      right
      refine ⟨r, by simp, rfl, hl.1, ?_, ?_⟩
      · intro i hi
        rcases List.mem_append.1 hi with h | h
        · have := hmax i h; omega
        · simp at h; subst h; exact Nat.le_refl _
      · intro i hi hir
        rcases List.mem_append.1 hi with h | h
        · have := hmax i h; omega
        · simp at h; omega
    · rw [if_neg (by rw [hd]; exact hl)]
      right
      refine ⟨s, by simp [hs], rfl, h2, ?_, ?_⟩
      · intro i hi
        rcases List.mem_append.1 hi with h | h
        · exact hmax i h
        · simp at h; subst h
          by_contra hc
          exact hl ⟨by omega, by omega⟩
      · intro i hi his
        rcases List.mem_append.1 hi with h | h
        · exact hleft i h his
        · simp at h; subst h
          have := hlt s hs
          omega

theorem RunInv_foldl (L : Nat → Nat) (rest : List Nat) (z : Nat × Nat) (seen : List Nat)
    (hsorted : rest.Pairwise (· < ·)) (hlt : ∀ i ∈ seen, ∀ r ∈ rest, i < r)
    (h : RunInv L z seen) : RunInv L (rest.foldl (runStep L) z) (seen ++ rest) := by
  induction rest generalizing z seen with
  | nil => simpa using h
  | cons r rs ih =>
    rw [List.foldl_cons, List.append_cons]
    rw [List.pairwise_cons] at hsorted
    apply ih _ _ hsorted.2
    · intro i hi x hx
      rcases List.mem_append.1 hi with h1 | h1
      · exact hlt i h1 x (List.mem_cons_of_mem _ hx)
      · simp at h1; subst h1; exact hsorted.1 x hx
    · exact RunInv_step L z seen r (fun i hi => hlt i hi r (List.mem_cons_self _ _)) h

/-- The search of `zeroRun` ends with no run of two or with the first longest
run. -/
theorem zeroRun_inv (g : List Nat) :
    RunInv (fun i => zeroLen (g.drop i)) (zeroRun g) (List.range 8) := by
  have h := RunInv_foldl (fun i => zeroLen (g.drop i)) (List.range 8) (255, 255) []
    (by decide) (by simp) (Or.inl ⟨rfl, by simp⟩)
  simpa using h

/-! ## The arguments of `SetPeer`: the text of an IP address -/

theorem length_sixteen (l : List Byte) (h : l.length = 16) :
    ∃ x0 x1 x2 x3 x4 x5 x6 x7 x8 x9 x10 x11 x12 x13 x14 x15 : Byte,
      l = [x0, x1, x2, x3, x4, x5, x6, x7, x8, x9, x10, x11, x12, x13, x14, x15] := by
  rcases l with _ | ⟨x0, l⟩
  · simp at h
  rcases l with _ | ⟨x1, l⟩
  · simp at h
  rcases l with _ | ⟨x2, l⟩
  · simp at h
  rcases l with _ | ⟨x3, l⟩
  · simp at h
  rcases l with _ | ⟨x4, l⟩
  · simp at h
  rcases l with _ | ⟨x5, l⟩
  · simp at h
  rcases l with _ | ⟨x6, l⟩
  · simp at h
  rcases l with _ | ⟨x7, l⟩
  · simp at h
  rcases l with _ | ⟨x8, l⟩
  · simp at h
  rcases l with _ | ⟨x9, l⟩
  · simp at h
  rcases l with _ | ⟨x10, l⟩
  · simp at h
  rcases l with _ | ⟨x11, l⟩
  · simp at h
  rcases l with _ | ⟨x12, l⟩
  · simp at h
  rcases l with _ | ⟨x13, l⟩
  · simp at h
  rcases l with _ | ⟨x14, l⟩
  · simp at h
  rcases l with _ | ⟨x15, l⟩
  · simp at h
  have hl : l = [] := List.length_eq_zero.1 (by simpa using h)
  subst hl
  exact ⟨x0, x1, x2, x3, x4, x5, x6, x7, x8, x9, x10, x11, x12, x13, x14, x15, rfl⟩

/-- Without a run, all eight groups are written, joined by colons. -/
theorem groupsText_plain (g0 g1 g2 g3 g4 g5 g6 g7 : Nat) :
    groupsText [g0, g1, g2, g3, g4, g5, g6, g7] (255, 255) 8 0
      = [':'].intercalate ([g0, g1, g2, g3, g4, g5, g6, g7].map fun v => hexBits 3 v []) := by
  simp [groupsText, List.intercalate, List.intersperse]

/-- With the run from `s` to `s + l`, the groups before and after it are
written around `::`. -/
theorem groupsText_run (g0 g1 g2 g3 g4 g5 g6 g7 s l : Nat) (hl : 2 ≤ l) (hs : s + l ≤ 8) :
    groupsText [g0, g1, g2, g3, g4, g5, g6, g7] (s, s + l) 8 0
      = [':'].intercalate
          (([g0, g1, g2, g3, g4, g5, g6, g7].take s).map fun v => hexBits 3 v [])
        ++ [':', ':']
        ++ [':'].intercalate
          (([g0, g1, g2, g3, g4, g5, g6, g7].drop (s + l)).map fun v => hexBits 3 v []) := by
  have hs6 : s ≤ 6 := by omega
  have hl8 : l ≤ 8 := by omega
  interval_cases s <;> interval_cases l <;>
    first
    | omega
    | simp [groupsText, List.intercalate, List.intersperse]

/-- The text written for eight 16-bit groups is the canonical IPv6 text. -/
theorem IsIPv6Text_groupsText (g0 g1 g2 g3 g4 g5 g6 g7 : Nat)
    (hlt : ∀ v ∈ [g0, g1, g2, g3, g4, g5, g6, g7], v < 65536) :
    IsIPv6Text
      (groupsText [g0, g1, g2, g3, g4, g5, g6, g7]
        (zeroRun [g0, g1, g2, g3, g4, g5, g6, g7]) 8 0)
      [g0, g1, g2, g3, g4, g5, g6, g7] := by
  have inv := zeroRun_inv [g0, g1, g2, g3, g4, g5, g6, g7]
  constructor
  · intro hno
    have hL : ∀ s, zeroLen ([g0, g1, g2, g3, g4, g5, g6, g7].drop s) < 2 := by
      intro s
      have := hno s
      rw [zerosAt_iff] at this
      omega
    rcases inv with ⟨hz, _⟩ | ⟨s, _, _, h2, _, _⟩
    · rw [hz, groupsText_plain]
      exact ⟨_, forall₂_map_hex _ hlt, rfl⟩
    · have := hL s
      simp only at h2
      omega
  · intro s l hl hrun hlong hleft
    rw [zerosAt_iff] at hrun
    have hlen := zeroLen_le_length ([g0, g1, g2, g3, g4, g5, g6, g7].drop s)
    have hsl : s + l ≤ 8 := by
      simp only [List.length_drop, List.length_cons, List.length_nil] at hlen
      omega
    have hmem : s ∈ List.range 8 := List.mem_range.2 (by omega)
    rcases inv with ⟨_, hall⟩ | ⟨s0, hs0, hz, _, hmax, hfirst⟩
    · have := hall s hmem
      simp only at this
      omega
    · have h1 := hmax s hmem
      have h2 := hlong s0
      rw [zerosAt_iff] at h2
      simp only at h1
      have hs : s0 = s := by
        rcases Nat.lt_trichotomy s0 s with h | h | h
        · have := hleft s0 h
          rw [zerosAt_iff] at this
          omega
        · exact h
        · have := hfirst s hmem h
          simp only at this
          omega
      subst hs
      have hl0 : zeroLen ([g0, g1, g2, g3, g4, g5, g6, g7].drop s0) = l := by omega
      simp only at hz
      rw [hz, hl0, groupsText_run _ _ _ _ _ _ _ _ s0 l hl hsl]
      exact ⟨_, _, forall₂_map_hex _ (fun v hv => hlt v (List.mem_of_mem_take hv)),
        forall₂_map_hex _ (fun v hv => hlt v (List.mem_of_mem_drop hv)), rfl⟩

/-- The text `IPString` writes for an address is the text of the address. -/
theorem IsIPText_IPString (ip : List Byte) : IsIPText (IPString ip) ip := by
  refine ⟨?_, ?_, ?_, ?_⟩
  · intro h; subst h; rfl
  · intro a b c d h
    have e : IPString ip = dotted [a, b, c, d] := by
      rcases h with h | h <;> subst h <;> simp [IPString, To4]
    rw [e]
    refine ⟨FormatUint a.val, FormatUint b.val, FormatUint c.val, FormatUint d.val,
      isDecimalOf_FormatUint _ (lt_trans a.isLt (by norm_num)),
      isDecimalOf_FormatUint _ (lt_trans b.isLt (by norm_num)),
      isDecimalOf_FormatUint _ (lt_trans c.isLt (by norm_num)),
      isDecimalOf_FormatUint _ (lt_trans d.isLt (by norm_num)), ?_⟩
    simp [dotted]
  · intro hlen hnot
    obtain ⟨x0, x1, x2, x3, x4, x5, x6, x7, x8, x9, x10, x11, x12, x13, x14, x15, rfl⟩ :=
      length_sixteen ip hlen
    have hto : To4 [x0, x1, x2, x3, x4, x5, x6, x7, x8, x9, x10, x11, x12, x13, x14, x15]
        = none := by
      unfold To4
      rw [if_neg (by simp), if_neg]
      rintro ⟨_, h10, h11, h12⟩
      apply hnot
      simp only [List.take, List.replicate, List.cons.injEq, and_true,
        List.getD_cons_zero, List.getD_cons_succ] at h10 h11 h12 ⊢
      exact ⟨h10.1, h10.2.1, h10.2.2.1, h10.2.2.2.1, h10.2.2.2.2.1, h10.2.2.2.2.2.1,
        h10.2.2.2.2.2.2.1, h10.2.2.2.2.2.2.2.1, h10.2.2.2.2.2.2.2.2.1,
        h10.2.2.2.2.2.2.2.2.2, h11, h12⟩
    have hg : groups [x0, x1, x2, x3, x4, x5, x6, x7, x8, x9, x10, x11, x12, x13, x14, x15]
        = words [x0, x1, x2, x3, x4, x5, x6, x7, x8, x9, x10, x11, x12, x13, x14, x15] := by
      rfl
    have e : IPString [x0, x1, x2, x3, x4, x5, x6, x7, x8, x9, x10, x11, x12, x13, x14, x15]
        = groupsText
            (words [x0, x1, x2, x3, x4, x5, x6, x7, x8, x9, x10, x11, x12, x13, x14, x15])
            (zeroRun
              (words [x0, x1, x2, x3, x4, x5, x6, x7, x8, x9, x10, x11, x12, x13, x14, x15]))
            8 0 := by
      unfold IPString
      rw [if_neg (by simp), if_neg (by simp), hto, hg]
    rw [e]
    apply IsIPv6Text_groupsText
    intro v hv
    simp only [List.mem_cons, List.mem_singleton, List.not_mem_nil, or_false] at hv
    have b0 := x0.isLt
    have b1 := x1.isLt
    have b2 := x2.isLt
    have b3 := x3.isLt
    have b4 := x4.isLt
    have b5 := x5.isLt
    have b6 := x6.isLt
    have b7 := x7.isLt
    have b8 := x8.isLt
    have b9 := x9.isLt
    have b10 := x10.isLt
    have b11 := x11.isLt
    have b12 := x12.isLt
    have b13 := x13.isLt
    have b14 := x14.isLt
    have b15 := x15.isLt
    rcases hv with h | h | h | h | h | h | h | h <;> omega
  · intro hne h4 h16
    have hlen : ip.length ≠ 0 := fun h => hne (List.length_eq_zero.1 h)
    have e : IPString ip = '?' :: hexString ip := by
      unfold IPString
      rw [if_neg hlen, if_pos ⟨h4, h16⟩]
    obtain ⟨hl, hall, hval⟩ := hexString_spec ip
    exact ⟨hexString ip, e, hl, hall, hval 0⟩

/-! ## Updating a peer: the command -/

/-- C7. Update command shape: for every peer with public key `K`, IP address
`A` and port `P`, every keepalive value `k` of a 64-bit `int` and every
interface name, `SetPeer` makes exactly one call, the child process `wg` with
the arguments `set`, the interface, `peer`, the padded standard base64 text of
`K`, `persistent-keepalive`, the decimal text of `k`, `endpoint`, and the
text of `A`, a colon and the decimal text of `P`. For any key `K`, the address
203.0.113.5 (in four bytes or IPv4-mapped in sixteen), port 51820 and
keepalive 25 the arguments after the interface are `peer <base64 of K>
persistent-keepalive 25 endpoint 203.0.113.5:51820`. -/
theorem SetPeer_command (w : World) (peer : Peer) (keepalive : Int) (iface : Str)
    (hlo : -2 ^ 63 ≤ keepalive) (hhi : keepalive < 2 ^ 63) :
    (∃ keyText kaText ipText portText : Str,
      (SetPeer w peer keepalive iface).1.events
          = w.events ++ [Event.exec "wg".toList
              ["set".toList, iface, "peer".toList, keyText,
               "persistent-keepalive".toList, kaText,
               "endpoint".toList, ipText ++ [':'] ++ portText]]
        ∧ isBase64Of keyText peer.Pubkey.val = true
        ∧ isDecimalOfInt kaText keepalive = true
        ∧ IsIPText ipText peer.IP
        ∧ isDecimalOf portText peer.Port.val = true)
    ∧ ∀ K : Key, ∃ keyText : Str, isBase64Of keyText K.val = true
        ∧ (SetPeer w ⟨K, [203, 0, 113, 5], 51820⟩ 25 iface).1.events
          = w.events ++ [Event.exec "wg".toList
              ["set".toList, iface, "peer".toList, keyText,
               "persistent-keepalive".toList, "25".toList,
               "endpoint".toList, "203.0.113.5:51820".toList]]
        ∧ (SetPeer w ⟨K, [0, 0, 0, 0, 0, 0, 0, 0, 0, 0, 255, 255, 203, 0, 113, 5], 51820⟩
            25 iface).1.events
          = w.events ++ [Event.exec "wg".toList
              ["set".toList, iface, "peer".toList, keyText,
               "persistent-keepalive".toList, "25".toList,
               "endpoint".toList, "203.0.113.5:51820".toList]] := by
  refine ⟨⟨EncodeToString peer.Pubkey.val, Itoa keepalive, IPString peer.IP,
    FormatUint peer.Port.val, RunCmd_events w _ _, isBase64Of_EncodeToString _,
    isDecimalOfInt_Itoa keepalive hlo hhi, IsIPText_IPString _,
    isDecimalOf_FormatUint _ (lt_trans peer.Port.isLt (by norm_num))⟩, fun K => ?_⟩
  have h1 : Itoa 25 = "25".toList := by decide
  have h2 : IPString [203, 0, 113, 5] ++ ":".toList ++ FormatUint (51820 : Fin 65536).val
      = "203.0.113.5:51820".toList := by decide
  have h3 : IPString [0, 0, 0, 0, 0, 0, 0, 0, 0, 0, 255, 255, 203, 0, 113, 5] ++ ":".toList
        ++ FormatUint (51820 : Fin 65536).val
      = "203.0.113.5:51820".toList := by decide
  have e4 : (SetPeer w ⟨K, [203, 0, 113, 5], 51820⟩ 25 iface).1.events
      = w.events ++ [Event.exec "wg".toList
          ["set".toList, iface, "peer".toList, EncodeToString K.val,
           "persistent-keepalive".toList, Itoa 25, "endpoint".toList,
           IPString [203, 0, 113, 5] ++ ":".toList ++ FormatUint (51820 : Fin 65536).val]] :=
    RunCmd_events w _ _
  have e16 : (SetPeer w ⟨K, [0, 0, 0, 0, 0, 0, 0, 0, 0, 0, 255, 255, 203, 0, 113, 5], 51820⟩
        25 iface).1.events
      = w.events ++ [Event.exec "wg".toList
          ["set".toList, iface, "peer".toList, EncodeToString K.val,
           "persistent-keepalive".toList, Itoa 25, "endpoint".toList,
           IPString [0, 0, 0, 0, 0, 0, 0, 0, 0, 0, 255, 255, 203, 0, 113, 5] ++ ":".toList
             ++ FormatUint (51820 : Fin 65536).val]] :=
    RunCmd_events w _ _
  rw [h1, h2] at e4
  rw [h1, h3] at e16
  exact ⟨EncodeToString K.val, isBase64Of_EncodeToString _, e4, e16⟩

/-- C7 at the key with bytes 0 to 31, the IPv6 address 2001:db8::1, port 443
and keepalive 0. -/
theorem SetPeer_command_witness :
    ∃ keyText kaText ipText portText : Str,
      (SetPeer (sampleWorld [] none)
          ⟨sampleKey, [0x20, 0x01, 0x0d, 0xb8, 0, 0, 0, 0, 0, 0, 0, 0, 0, 0, 0, 1], 443⟩
          0 "wg0".toList).1.events
          = (sampleWorld [] none).events ++ [Event.exec "wg".toList
              ["set".toList, "wg0".toList, "peer".toList, keyText,
               "persistent-keepalive".toList, kaText,
               "endpoint".toList, ipText ++ [':'] ++ portText]]
        ∧ isBase64Of keyText sampleKey.val = true
        ∧ isDecimalOfInt kaText 0 = true
        ∧ IsIPText ipText [0x20, 0x01, 0x0d, 0xb8, 0, 0, 0, 0, 0, 0, 0, 0, 0, 0, 0, 1]
        ∧ isDecimalOf portText (443 : Fin 65536).val = true :=
  (SetPeer_command (sampleWorld [] none)
    ⟨sampleKey, [0x20, 0x01, 0x0d, 0xb8, 0, 0, 0, 0, 0, 0, 0, 0, 0, 0, 0, 1], 443⟩
    0 "wg0".toList (by decide) (by decide)).1

end Natpunch
